import Mathlib

/-!
Verification of the Mahagenco staffing dashboard (`app.py`) against its
natural-language specification.

The dashboard's data layer is shallowly embedded here:

* a pandas `DataFrame` row becomes a `Row` structure of string fields
  (columns `Unit`, `Desk`, `Department`, `Staff_Name`, `Status`,
  `Designation`, `SAP_ID`, `Action_Required`);
* a `DataFrame` becomes a `List Row`, in file order;
* the metric helpers (`calculate_metrics`), the admin mutation handlers
  (`Update Status`, `Add to Department`, `Add to Roster`), the GitHub sync
  wrapper (`update_github`), the display-name formatter
  (`format_staff_name`) and the CSV load/save pair (`load_data` /
  `save_local`) are translated function by function;
* Streamlit side effects (file writes, remote pushes, messages) are
  reified as an explicit trace of `Eff` values, and the session flag
  `st.session_state.admin_logged_in` becomes a small state machine.

Python string primitives used by the code (`str.strip`, the `in`
substring test, `str.contains(case=False)`, code-point comparison used by
`sort_values` on string columns) are modelled on `List Char` so that all
definitions compute by kernel reduction.
-/

namespace Staffing

/-! ### Python string primitives -/

/-- Whitespace test used by Python `str.strip()` (space, tab, CR, LF). -/
def isWS (c : Char) : Bool := c.isWhitespace

/-- Drop leading whitespace. -/
def dropLeadWS (l : List Char) : List Char := l.dropWhile isWS

/-- Drop trailing whitespace (the maximal whitespace run at the end). -/
def dropTrailWS : List Char → List Char
| [] => []
| c :: rest =>
  match dropTrailWS rest with
  | [] => if isWS c then [] else [c]
  | r => c :: r

/-- Model of Python `str.strip()` on character lists. -/
def trimChars (l : List Char) : List Char := dropTrailWS (dropLeadWS l)

/-- Model of Python `str.strip()` on strings. -/
def pyStrip (s : String) : String := String.mk (trimChars s.data)

/-- Does `pat` occur at the head of `l`? -/
def headMatch : List Char → List Char → Bool
| [], _ => true
| _ :: _, [] => false
| a :: as, b :: bs => a == b && headMatch as bs

/-- Does `pat` occur as a contiguous substring of `l`? -/
def hasSub (pat : List Char) : List Char → Bool
| [] => headMatch pat []
| c :: rest => headMatch pat (c :: rest) || hasSub pat rest

/-- Model of the Python substring test `pat in hay` (case sensitive). -/
def containsStr (hay pat : String) : Bool := hasSub pat.data hay.data

/-- Model of pandas `Series.str.contains(pat, case=False)` for plain
(non-regex-meta) patterns: case-insensitive substring test. -/
def containsCI (hay pat : String) : Bool :=
  hasSub (pat.data.map Char.toUpper) (hay.data.map Char.toUpper)

/-- Code-point lexicographic strict order on character lists; this is the
order Python string comparison (and hence pandas `sort_values` on a string
column) uses. -/
def lexLt : List Char → List Char → Bool
| _, [] => false
| [], _ :: _ => true
| a :: as, b :: bs =>
  if a.toNat < b.toNat then true
  else if b.toNat < a.toNat then false
  else lexLt as bs

/-! ### Data model

One staffing record (one CSV row).  The operational file uses columns
`Unit`, `Desk`, `Staff_Name`, `Status`, `Action_Required`; the departmental
file uses `Department`, `Staff_Name`, `Designation`, `SAP_ID`, `Status`,
`Action_Required`.  A single structure with all fields (unused ones
defaulting to `""`) covers both. -/

structure Row where
  unit : String := ""
  desk : String := ""
  department : String := ""
  staffName : String := ""
  status : String := ""
  designation : String := ""
  sapId : String := ""
  actionRequired : String := ""
deriving DecidableEq, Repr

/-! ### calculate_metrics (app.py lines 120-145) -/

/-- `staff_only = df[df['Staff_Name'].str.contains("VACANT", case=False) == False]`. -/
def vacantNameB (n : String) : Bool := containsCI n "VACANT"

/-- Steps 1-2 of `calculate_metrics`: drop vacancy sentinel rows, then
normalize names with `astype(str).str.strip()`. -/
def staffOnly (df : List Row) : List Row :=
  (df.filter (fun r => !vacantNameB r.staffName)).map
    (fun r => { r with staffName := pyStrip r.staffName })

/-- `Status_Rank`: `2 if 'Transferred' in str(x) else 1`. -/
def statusRank (s : String) : Nat := if containsStr s "Transferred" then 2 else 1

/-- The key order of `sort_values(by=['Staff_Name', 'Status_Rank'],
ascending=[True, False])`: name ascending, then rank descending.  pandas
leaves the relative order of rows with equal keys unspecified (quicksort);
the model uses a stable sort, a legitimate instance of that freedom. -/
def rowLeB (a b : Row) : Bool :=
  if a.staffName = b.staffName then decide (statusRank b.status ≤ statusRank a.status)
  else lexLt a.staffName.data b.staffName.data

def RowLe (a b : Row) : Prop := rowLeB a b = true

instance : DecidableRel RowLe := fun a b => by unfold RowLe; infer_instance

/-- The sort step of `calculate_metrics`. -/
def sortStaff (l : List Row) : List Row := List.insertionSort RowLe l

/-- `drop_duplicates(subset=['Staff_Name'], keep='first')`: keep the first
row for each name, in list order.  `seen` accumulates names already kept. -/
def dedupFirst (seen : List String) : List Row → List Row
| [] => []
| x :: xs =>
  if x.staffName ∈ seen then dedupFirst seen xs
  else x :: dedupFirst (x.staffName :: seen) xs

/-- `unique_staff` of `calculate_metrics`. -/
def uniqueStaff (df : List Row) : List Row := dedupFirst [] (sortStaff (staffOnly df))

/-- `transferred = len(unique_staff[unique_staff['Status'] == 'Transferred'])`. -/
def transferredCount (df : List Row) : Nat :=
  (uniqueStaff df).countP (fun r => r.status == "Transferred")

/-- `vacant = len(df[df['Status'] == 'VACANCY'])` (over the full frame). -/
def vacantCount (df : List Row) : Nat := df.countP (fun r => r.status == "VACANCY")

/-- `status_counts = unique_staff['Status'].value_counts()`, then
`if vacant > 0: status_counts['VACANCY'] = vacant`.  Modelled as a total
count function (absent keys count 0). -/
def statusCounts (df : List Row) (s : String) : Nat :=
  if s = "VACANCY" ∧ 0 < vacantCount df then vacantCount df
  else (uniqueStaff df).countP (fun r => r.status == s)

/-- `calculate_metrics(df)` returns `(vacant, transferred, status_counts)`.
An empty frame returns `(0, 0, empty series)`, which the component
definitions already produce. -/
def calculate_metrics (df : List Row) : Nat × Nat × (String → Nat) :=
  (vacantCount df, transferredCount df, statusCounts df)

/-! ### Admin mutation handlers (tab3) -/

/-- Replace the first row satisfying `q` using `f`; all other rows are kept
unchanged.  This models `df.at[idx, ...] = ...` where
`idx = filtered.index[0]` (filtering preserves the original row order, so
`index[0]` is the first matching row).  If no row matches, the Python code
would raise `IndexError`; the claims below always assume a match exists. -/
def updateFirst (q : Row → Bool) (f : Row → Row) : List Row → List Row
| [] => []
| r :: rest => if q r then f r :: rest else r :: updateFirst q f rest

/-- The `Update Status` write: `working_df.at[idx,'Status'] = s`, and when
`s == 'VACANCY'` also `working_df.at[idx,'Staff_Name'] = "VACANT"`. -/
def applyStatus (s : String) (r : Row) : Row :=
  let r1 : Row := { r with status := s }
  if s = "VACANCY" then { r1 with staffName := "VACANT" } else r1

/-- Row selection for the ops view of `Change Status`: the person's row
within the chosen unit and desk. -/
def opsSelect (u d p : String) (r : Row) : Bool :=
  r.unit == u && r.desk == d && r.staffName == p

/-- Row selection for the departmental view of `Change Status`. -/
def deptSelect (dept p : String) (r : Row) : Bool :=
  r.department == dept && r.staffName == p

/-- `Update Status` handler, ops view (app.py lines 551-566). -/
def updateStatusOps (df : List Row) (u d p s : String) : List Row :=
  updateFirst (opsSelect u d p) (applyStatus s) df

/-- `Update Status` handler, departmental view. -/
def updateStatusDept (df : List Row) (dept p s : String) : List Row :=
  updateFirst (deptSelect dept p) (applyStatus s) df

/-- `Add to Department` handler (app.py lines 579-586): with a nonempty
name, append a fresh `Active` row; otherwise an error message and no
change. -/
def addToDepartment (df : List Row) (dept name desg sap : String) : List Row :=
  if name = "" then df
  else df ++ [{ department := dept, staffName := name, designation := desg,
                sapId := sap, status := "Active", actionRequired := "" }]

/-- The vacancy-reuse test of `Add to Roster`:
`working_df[(Unit==u) & (Desk==d) & (Status=='VACANCY')]`. -/
def rosterVacSelect (u d : String) (r : Row) : Bool :=
  r.unit == u && r.desk == d && r.status == "VACANCY"

/-- `Add to Roster` handler (app.py lines 593-606): with a nonempty name,
reuse the first matching vacancy row if one exists (overwrite its name and
set it `Active`), else append a fresh row. -/
def addToRoster (df : List Row) (u d name : String) : List Row :=
  if name = "" then df
  else if df.countP (rosterVacSelect u d) = 0 then
    df ++ [{ unit := u, desk := d, staffName := name, status := "Active",
             actionRequired := "" }]
  else
    updateFirst (rosterVacSelect u d)
      (fun r => { r with staffName := name, status := "Active" }) df

/-! ### Effect traces: update_github, save_local, mutation handlers -/

/-- Streamlit messages shown to the user. -/
inductive Msg where
| errorBox (s : String)
| successBox (s : String)
| warningBox (s : String)
| infoBox (s : String)
deriving DecidableEq, Repr

/-- Side effects of an admin mutation, in order of occurrence. -/
inductive Eff where
| saveLocalFile (filename : String) (content : List Row)
| remoteSync (filename : String)
| showMsg (m : Msg)
deriving DecidableEq, Repr

def isRemoteSync : Eff → Bool
| .remoteSync _ => true
| _ => false

/-- `update_github` (app.py lines 55-68): the whole body runs inside one
`try`; any failure of the remote interaction (secrets lookup, auth,
network, API call) lands in the `except`, which shows
`st.error(f"GitHub Sync Error: {e}")` and returns `False`; success returns
`True`.  The remote interaction's outcome is abstracted as an
`Except String Unit` input.  Exactly one sync attempt is made — there is
no retry loop and no queue. -/
def update_github (filename : String) (remote : Except String Unit) :
    Bool × List Eff :=
  match remote with
  | .ok _ => (true, [.remoteSync filename])
  | .error e =>
    (false, [.remoteSync filename, .showMsg (.errorBox ("GitHub Sync Error: " ++ e))])

/-- `save_local` (app.py lines 81-83): unconditional local CSV write. -/
def save_local (df : List Row) (filename : String) : List Eff :=
  [.saveLocalFile filename df]

/-- The shared shape of every admin mutation handler (app.py lines
566-567, 583-584, 603-604): mutate the frame, `save_local` it, then
`update_github` it, then show a success message.  `df'` is the already
mutated frame. -/
def adminMutationRun (df' : List Row) (filename okMsg : String)
    (remote : Except String Unit) : Bool × List Eff :=
  let g := update_github filename remote
  (g.1, save_local df' filename ++ g.2 ++ [.showMsg (.successBox okMsg)])

/-! ### Session state machine (admin login, tab3) -/

/-- Per-session application state: the `st.session_state.admin_logged_in`
flag (initialized `False` at line 52) and the two data frames. -/
structure AppState where
  adminLoggedIn : Bool
  opsDf : List Row
  deptDf : List Row
deriving DecidableEq, Repr

/-- User interactions that can change the session state.  The mutation
widgets are only rendered in the logged-in branch of tab3, so their
transitions are guarded by `adminLoggedIn`; the login widget is only
rendered when logged out. -/
inductive Event where
| loginAttempt (pw : String)
| logout
| opsChangeStatus (u d p s : String)
| deptChangeStatus (dept p s : String)
| opsAddPerson (u d name : String)
| deptAddPerson (dept name desg sap : String)
deriving DecidableEq, Repr

/-- One step of the session state machine.  Login succeeds exactly when
the entered password equals the hardcoded literal `"admin123"` (line
538). -/
def step (st : AppState) (e : Event) : AppState :=
  match e with
  | .loginAttempt pw =>
    if !st.adminLoggedIn && (pw == "admin123") then { st with adminLoggedIn := true }
    else st
  | .logout => if st.adminLoggedIn then { st with adminLoggedIn := false } else st
  | .opsChangeStatus u d p s =>
    if st.adminLoggedIn then { st with opsDf := updateStatusOps st.opsDf u d p s }
    else st
  | .deptChangeStatus dept p s =>
    if st.adminLoggedIn then { st with deptDf := updateStatusDept st.deptDf dept p s }
    else st
  | .opsAddPerson u d name =>
    if st.adminLoggedIn then { st with opsDf := addToRoster st.opsDf u d name }
    else st
  | .deptAddPerson dept name desg sap =>
    if st.adminLoggedIn then { st with deptDf := addToDepartment st.deptDf dept name desg sap }
    else st

/-- Run a sequence of interactions. -/
def runEvents (st : AppState) (es : List Event) : AppState := es.foldl step st

/-- A fresh session: logged out, frames as loaded. -/
def initState (ops dept : List Row) : AppState :=
  { adminLoggedIn := false, opsDf := ops, deptDf := dept }

/-! ### CSV model: load_data / save_local file contents

`load_data` calls `pd.read_csv`; `save_local` calls `df.to_csv(index=False)`.
The model covers quote-free CSV text (none of the repository's data files
need quoting) and reproduces the two pandas behaviours that matter for
round-tripping: blank-line skipping and numeric dtype inference (a column
whose non-empty fields are all digit strings is parsed as `int64`, or as
`float64` when the column also has empty fields; writing back re-renders
those cells, e.g. `007` → `7` and, with `float64`, `7` → `7.0`).
`fillna("")` turns missing cells into empty strings. -/

/-- Split a character list on a separator (no quote handling). -/
def splitOnChar (sep : Char) : List Char → List (List Char)
| [] => [[]]
| c :: rest =>
  match splitOnChar sep rest with
  | [] => [[c]]
  | h :: t => if c = sep then [] :: h :: t else (c :: h) :: t

/-- Join character lists with a separator. -/
def joinWithChar (sep : Char) : List (List Char) → List Char
| [] => []
| [x] => x
| x :: y :: t => x ++ sep :: joinWithChar sep (y :: t)

/-- The non-blank physical lines of a file (pandas `skip_blank_lines=True`,
and a trailing newline produces no extra record). -/
def csvLines (text : List Char) : List (List Char) :=
  (splitOnChar '\n' text).filter (fun l => l ≠ [])

/-- The comma-separated cells of one line. -/
def csvCells (line : List Char) : List String :=
  (splitOnChar ',' line).map String.mk

/-- Width check of the raw parse: a ragged file (a record whose width
differs from the header) makes `pd.read_csv` raise, which `load_data`
catches; modelled as `none`. -/
def parseCsvRows (header : List String) (rows : List (List String)) :
    Option (List String × List (List String)) :=
  if rows.all (fun r => r.length = header.length) then some (header, rows) else none

/-- Raw parse: header plus records (an empty file also raises). -/
def parseCsv (text : String) : Option (List String × List (List String)) :=
  match csvLines text.data with
  | [] => none
  | hd :: tl => parseCsvRows (csvCells hd) (tl.map csvCells)

/-- Is this field a nonempty digit string? -/
def isDigitsStr (f : String) : Bool := f ≠ "" && f.data.all (fun c => c.isDigit)

/-- pandas' default NA markers (`read_csv`'s `na_values`): a cell spelled
this way parses as NaN regardless of the column's dtype, and `fillna("")`
then renders it as the empty string. -/
def naStrings : List String :=
  ["", "#N/A", "#N/A N/A", "#NA", "-1.#IND", "-1.#QNAN", "-NaN", "-nan",
   "1.#IND", "1.#QNAN", "<NA>", "N/A", "NA", "NULL", "NaN", "None",
   "n/a", "nan", "null"]

def isNA (f : String) : Bool := naStrings.contains f

/-- NaN conversion followed by `fillna("")`, as it acts on one cell. -/
def naNorm (f : String) : String := if isNA f then "" else f

/-- Split an optional leading sign off a numeric literal: whether the
value is negative, and the unsigned body. -/
def stripSign : List Char → Bool × List Char
| '-' :: r => (true, r)
| '+' :: r => (false, r)
| l => (false, l)

/-- An integer literal: optional sign, then one or more digits. -/
def isIntLit (f : String) : Bool :=
  let b := (stripSign f.data).2
  b ≠ [] && b.all (fun c => c.isDigit)

/-- A decimal literal: optional sign, then digits with exactly one decimal
point and at least one digit (`7.`, `.5` and `007.50` all parse).  pandas
also accepts exponent forms; none occur in this repository's data, and
every theorem below excludes float columns altogether. -/
def isDecLit (f : String) : Bool :=
  let b := (stripSign f.data).2
  (b.count '.' == 1) && b.any (fun c => c.isDigit) &&
    b.all (fun c => c.isDigit || c = '.')

def isNumLit (f : String) : Bool := isIntLit f || isDecLit f

/-- The boolean literals pandas' parser recognizes. -/
def isBoolLit (f : String) : Bool :=
  ["True", "TRUE", "true", "False", "FALSE", "false"].contains f

/-- pandas infers `int64` for a column whose fields are all integer
literals (an NA marker or a decimal anywhere forces `float64` instead). -/
def colIsInt (col : List String) : Bool := col ≠ [] && col.all isIntLit

/-- pandas infers `float64` for a column whose fields are all numeric
literals or NA markers, with at least one numeric literal (an all-integer
column without NAs is caught by the `int64` test first). -/
def colIsFloat (col : List String) : Bool :=
  col.all (fun f => isNA f || isNumLit f) && col.any isNumLit

/-- pandas infers a boolean column when every field is a boolean literal
or an NA marker, with at least one boolean literal; the cells read back
capitalized `True`/`False`. -/
def colIsBool (col : List String) : Bool :=
  col.all (fun f => isNA f || isBoolLit f) && col.any isBoolLit

/-- Numeric value of a digit list. -/
def digitsVal (l : List Char) : Nat :=
  l.foldl (fun n c => n * 10 + (c.toNat - 48)) 0

/-- Numeric value of a digit string. -/
def parseDigits (f : String) : Nat := digitsVal f.data

/-- `int64` re-rendering of an integer literal: the integer's value, so a
leading `+` and leading zeros drop and `-0` becomes `0`. -/
def renderIntLit (f : String) : String :=
  let sb := stripSign f.data
  let n := digitsVal sb.2
  if n = 0 then "0" else (if sb.1 then "-" else "") ++ Nat.repr n

/-- Drop trailing zero digits of a fraction part. -/
def dropTrailZeros (l : List Char) : List Char :=
  (l.reverse.dropWhile (fun c => c = '0')).reverse

/-- `float64` re-rendering of a decimal literal: leading zeros of the
integer part and trailing zeros of the fraction part drop and a missing
part is written `0` (`007.50` → `7.5`, `.5` → `0.5`, `7.` → `7.0`,
`-0.00` → `-0.0`).  This is the exact float repr for the short mantissas
of this domain; a literal beyond double precision (more than about 15
significant digits) would round instead, which no theorem below relies
on — they all exclude float columns. -/
def renderDecLit (f : String) : String :=
  let sb := stripSign f.data
  let ip := sb.2.takeWhile (fun c => c ≠ '.')
  let fp := dropTrailZeros (sb.2.dropWhile (fun c => c ≠ '.')).tail
  (if sb.1 then "-" else "") ++ Nat.repr (digitsVal ip) ++ "." ++
    (if fp = [] then "0" else String.mk fp)

/-- `float64` re-rendering of any numeric literal: an integer literal kept
in a float column reads back with a trailing `.0` (its sign survives, so
`-0` reads back `-0.0`, as `float("-0")` does). -/
def renderFloatLit (f : String) : String :=
  if isIntLit f then
    let sb := stripSign f.data
    (if sb.1 then "-" else "") ++ Nat.repr (digitsVal sb.2) ++ ".0"
  else renderDecLit f

/-- Boolean re-rendering: capitalized `True`/`False`. -/
def renderBoolLit (f : String) : String :=
  if ["True", "TRUE", "true"].contains f then "True" else "False"

/-- How one cell of a column reads back out of the frame after
`read_csv` + `fillna("")`, as later serialized by `to_csv`: an `int64`
column re-renders its integers, a `float64` column re-renders its numbers
with a decimal point and its NA cells as empty, a boolean column
re-renders `True`/`False`, and an object column keeps every cell verbatim
except the NA markers, which come back as empty strings. -/
def inferCell (col : List String) (f : String) : String :=
  if colIsInt col then renderIntLit f
  else if colIsFloat col then (if isNA f then "" else renderFloatLit f)
  else if colIsBool col then (if isNA f then "" else renderBoolLit f)
  else naNorm f

/-- Column `j` of the records. -/
def colOf (rows : List (List String)) (j : Nat) : List String :=
  rows.map (fun r => r.getD j "")

/-- Apply dtype inference and `fillna("")` to every cell. -/
def inferRows (header : List String) (rows : List (List String)) :
    List (List String) :=
  rows.map (fun r => (List.range header.length).map
    (fun j => inferCell (colOf rows j) (r.getD j "")))

/-- A data frame as (column names, records of rendered cells). -/
def Frame := List String × List (List String)

def emptyFrame : Frame := ([], [])

/-- `if 'Status' not in df.columns: df['Status'] = 'Active'` (and likewise
`Action_Required` with `''`). -/
def addColumn (name dflt : String) (t : Frame) : Frame :=
  if name ∈ t.1 then t else (t.1 ++ [name], t.2.map (fun r => r ++ [dflt]))

/-- The column checks, dtype materialization and column defaulting
`load_data` performs on a successful raw parse: for the ops file a frame
without a `Desk` column is rejected as empty, and missing `Status` /
`Action_Required` columns are added with their defaults. -/
def loadParsed (isOps : Bool) :
    Option (List String × List (List String)) → Frame
| none => emptyFrame
| some (header, rows) =>
  if isOps ∧ "Desk" ∉ header then emptyFrame
  else
    addColumn "Action_Required" ""
      (addColumn "Status" "Active" (header, inferRows header rows))

/-- `load_data` (app.py lines 70-79).  `fileContent = none` models a
missing/unreadable file (`pd.read_csv` raises, the bare `except` returns
`pd.DataFrame()`). -/
def load_data (isOps : Bool) (fileContent : Option String) : Frame :=
  match fileContent with
  | none => emptyFrame
  | some text => loadParsed isOps (parseCsv text)

/-- Does `to_csv` need to quote this field? -/
def needsQuote (f : String) : Bool :=
  f.data.any (fun c => c = ',' ∨ c = '"' ∨ c = '\n')

/-- Minimal quoting as `to_csv` performs it (quotes doubled). -/
def quoteField (f : String) : List Char :=
  '"' :: (f.data.flatMap (fun c => if c = '"' then ['"', '"'] else [c])) ++ ['"']

def renderField (f : String) : List Char :=
  if needsQuote f then quoteField f else f.data

def renderLine (cells : List String) : List Char :=
  joinWithChar ',' (cells.map renderField)

/-- `df.to_csv(index=False)`: header line, then records, each line
terminated by a newline. -/
def to_csv (t : Frame) : String :=
  String.mk ((joinWithChar '\n' ((t.1 :: t.2).map renderLine)) ++ ['\n'])

/-- The bytes `save_local` writes for a frame. -/
def save_local_content (t : Frame) : String := to_csv t

/-- One line of a quote-free CSV file: cells joined by commas. -/
def encodeLine (cells : List String) : List Char :=
  joinWithChar ',' (cells.map String.data)

/-- A quote-free CSV file: lines joined by newlines, trailing newline.
Every well-formed quote-free CSV text is `encodeCsv` of its parse, so
quantifying over `encodeCsv` images covers those files. -/
def encodeCsv (headerRows : List (List String)) : String :=
  String.mk (joinWithChar '\n' (headerRows.map encodeLine) ++ ['\n'])

/-- `df.empty` for the frame view. -/
def frameEmpty (t : Frame) : Bool := t.2.isEmpty

/-- Messages tab1 shows for the ops view: an *error* box when the ops data
is missing/empty (app.py line 365), nothing data-related otherwise. -/
def tab1OpsMessages (t : Frame) : List Msg :=
  if frameEmpty t then [.errorBox "Data Missing for Shift Ops."] else []

/-- Messages tab1 shows for the departmental view (app.py line 433). -/
def tab1DeptMessages (t : Frame) : List Msg :=
  if frameEmpty t then [.errorBox "Data Missing."] else []

/-! ### format_staff_name (app.py lines 85-94)

The two regular expressions are modelled directly on character lists:

* `re.sub(r'\s*\((Transferred|Trf|transferred)\)', '', name, flags=I)`
* `re.search(r'\s+(JE|AE|DY\.? ?EE|ADD\.? ?EE|AD\.? ?EE|EE)\b', clean, flags=I)`

Greedy quantifiers are modelled by maximal munch.  That is faithful here:
backtracking `\s*`/`\s+` can only retry the following mandatory piece at a
whitespace character, where it fails anyway (`\(` and every alternative's
first letter are not whitespace); backtracking `\.?` / ` ?` can only retry
`EE` at a `.` or a space, where it also fails. -/

/-- Case-insensitive character comparison (`re.IGNORECASE`). -/
def ciEq (pc c : Char) : Bool := pc.toUpper == c.toUpper

/-- Match a literal pattern case-insensitively from the head; return the
consumed input characters (original case) and the rest. -/
def matchLit : List Char → List Char → Option (List Char × List Char)
| [], l => some ([], l)
| _ :: _, [] => none
| pc :: ps, c :: cs =>
  if ciEq pc c then (matchLit ps cs).map (fun tr => (c :: tr.1, tr.2)) else none

/-- Optionally consume one specific character (greedy `X?`). -/
def matchOpt (ch : Char) (l : List Char) : List Char × List Char :=
  match l with
  | c :: cs => if c = ch then ([c], cs) else ([], l)
  | [] => ([], [])

/-- One alternative of the suffix group: a literal prefix, optionally
followed (for the `DY`/`ADD`/`AD` forms) by `\.? ?EE`. -/
def matchTokenAlt (pre : List Char) (hasTail : Bool) (l : List Char) :
    Option (List Char × List Char) :=
  match matchLit pre l with
  | none => none
  | some (t1, r1) =>
    if hasTail then
      let d := matchOpt '.' r1
      let sp := matchOpt ' ' d.2
      match matchLit ['E', 'E'] sp.2 with
      | none => none
      | some (t4, r4) => some (t1 ++ d.1 ++ sp.1 ++ t4, r4)
    else some (t1, r1)

/-- Word character for `\b`. -/
def isWordChar (c : Char) : Bool := c.isAlphanum || c = '_'

/-- Enforce the trailing `\b`: the match survives only if the next input
character is not a word character (or the input ends). -/
def withBoundary (res : Option (List Char × List Char)) :
    Option (List Char × List Char) :=
  match res with
  | none => none
  | some (t, []) => some (t, [])
  | some (t, c :: r) => if isWordChar c then none else some (t, c :: r)

/-- The alternation `(JE|AE|DY\.? ?EE|ADD\.? ?EE|AD\.? ?EE|EE)\b`, tried in
regex order; a later alternative is tried when an earlier one fails its
`\b` (Python backtracks into the group). -/
def tryTokenB (l : List Char) : Option (List Char × List Char) :=
  (withBoundary (matchTokenAlt ['J', 'E'] false l)).orElse fun _ =>
  (withBoundary (matchTokenAlt ['A', 'E'] false l)).orElse fun _ =>
  (withBoundary (matchTokenAlt ['D', 'Y'] true l)).orElse fun _ =>
  (withBoundary (matchTokenAlt ['A', 'D', 'D'] true l)).orElse fun _ =>
  (withBoundary (matchTokenAlt ['A', 'D'] true l)).orElse fun _ =>
  withBoundary (matchTokenAlt ['E', 'E'] false l)

/-- After the first whitespace of `\s+`: skip further whitespace, then try
the token group (maximal munch; see the section comment). -/
def wsTokenAfter : List Char → Option (List Char)
| [] => none
| c :: rest => if isWS c then wsTokenAfter rest else (tryTokenB (c :: rest)).map (fun tr => tr.1)

/-- Try `\s+(...)\b` at the current position; returns `group(1)`. -/
def wsTokenAt : List Char → Option (List Char)
| [] => none
| c :: rest => if isWS c then wsTokenAfter rest else none

/-- `re.search` for the suffix pattern: leftmost match; returns the text
before the match (`clean[:match.start()]`) and `group(1)`. -/
def searchSuffix : List Char → Option (List Char × List Char)
| [] => none
| c :: rest =>
  match wsTokenAt (c :: rest) with
  | some g => some ([], g)
  | none => (searchSuffix rest).map (fun pg => (c :: pg.1, pg.2))

/-- `(Transferred|Trf|transferred)` after `\(`, then `\)`; returns the rest
of the input after the closing parenthesis.  (`transferred` adds nothing
under `IGNORECASE`; a later alternative is tried when an earlier one fails
or its `\)` fails.) -/
def transfTail : List Char → Option (List Char)
| [] => none
| c :: r1 =>
  if c = '(' then
    match matchLit "Transferred".data r1 with
    | some (_, ')' :: r2) => some r2
    | _ =>
      match matchLit "Trf".data r1 with
      | some (_, ')' :: r2) => some r2
      | _ => none
  else none

/-- Try `\s*\((Transferred|Trf|transferred)\)` at the current position. -/
def matchTransfAt : List Char → Option (List Char)
| [] => none
| c :: rest => if isWS c then matchTransfAt rest else transfTail (c :: rest)

/-- Global `re.sub(..., '')`: scan left to right, drop every match.  The
fuel argument (initialized to the input length) only serves termination;
every match consumes at least one character. -/
def subTransfFuel : Nat → List Char → List Char
| 0, l => l
| _ + 1, [] => []
| fuel + 1, c :: rest =>
  match matchTransfAt (c :: rest) with
  | some r => subTransfFuel fuel r
  | none => c :: subTransfFuel fuel rest

def subTransf (l : List Char) : List Char := subTransfFuel l.length l

/-- The case-insensitive letter pairs every suffix alternative starts
with (`JE`, `AE`, `DY…`, `AD…`/`ADD…`, `EE`).  A name fragment free of
these pairs cannot host a suffix-token match. -/
def badPair (a b : Char) : Bool :=
  ('J'.toUpper == a.toUpper && 'E'.toUpper == b.toUpper) ||
  ('A'.toUpper == a.toUpper && 'E'.toUpper == b.toUpper) ||
  ('D'.toUpper == a.toUpper && 'Y'.toUpper == b.toUpper) ||
  ('A'.toUpper == a.toUpper && 'D'.toUpper == b.toUpper) ||
  ('E'.toUpper == a.toUpper && 'E'.toUpper == b.toUpper)

/-- No two consecutive characters form a suffix-starting pair. -/
def noBadPairs : List Char → Bool
| a :: b :: t => !badPair a b && noBadPairs (b :: t)
| _ => true

/-- The dot/space spellings the suffix pattern
`(JE|AE|DY\.? ?EE|ADD\.? ?EE|AD\.? ?EE|EE)` recognizes. -/
def suffixVariants : List String :=
  ["JE", "AE", "EE", "DY.EE", "DY EE", "DY. EE", "DYEE",
   "ADD.EE", "ADD EE", "ADD. EE", "ADDEE", "AD.EE", "AD EE", "AD. EE", "ADEE"]

/-- `format_staff_name` (app.py lines 85-94). -/
def format_staff_name (rawName desg : String) : String :=
  if containsStr rawName "VACANT" then "VACANT"
  else
    let clean := trimChars (subTransf rawName.data)
    if desg ≠ "" ∧ trimChars desg.data ≠ [] ∧
        hasSub (desg.data.map Char.toLower) (clean.map Char.toLower) = false then
      String.mk (clean ++ ' ' :: '(' :: desg.data ++ [')'])
    else if desg = "" then
      match searchSuffix clean with
      | some (pre, g) => String.mk (trimChars pre ++ ' ' :: '(' :: g ++ [')'])
      | none => String.mk clean
    else String.mk clean

/-! ### Derived notions for the metric claims (C2, C3) -/

/-- Keep-first deduplication of a name list (`seen` accumulates names
already kept); mirrors `drop_duplicates(keep='first')` at the key level. -/
def dedupNames (seen : List String) : List String → List String
| [] => []
| n :: ns => if n ∈ seen then dedupNames seen ns else n :: dedupNames (n :: seen) ns

/-- The distinct (stripped, non-vacant) staff names of a frame. -/
def namesOf (df : List Row) : List String :=
  dedupNames [] ((staffOnly df).map (fun r => r.staffName))

/-- Does some (stripped, non-vacant) row of `df` record this name with
status exactly `Transferred`? -/
def hasTransferredName (df : List Row) (n : String) : Bool :=
  (staffOnly df).any (fun r => r.staffName == n && r.status == "Transferred")

/-- The status column only takes the small fixed set of values the data
model documents. -/
def validStatusList : List String := ["Active", "Transferred", "VACANCY", "Long Leave"]

def ValidStatuses (df : List Row) : Prop := ∀ r ∈ df, r.status ∈ validStatusList

instance (df : List Row) : Decidable (ValidStatuses df) := by
  unfold ValidStatuses; infer_instance

/-- The distinct values of a grouping column (`Unit` or `Department`),
first-occurrence order — the groups of the partition. -/
def keysOf (κ : Row → String) (df : List Row) : List String :=
  dedupNames [] (df.map κ)

/-- The group of the partition a deduplicated name belongs to: the key of
the first (stripped, non-vacant) row carrying that name. -/
def repKey (κ : Row → String) (df : List Row) (n : String) : String :=
  (((staffOnly df).find? (fun r => r.staffName == n)).map κ).getD ""

/-- Partition a frame by a grouping column, apply a metric to every group,
and sum. -/
def groupMetricsSum (κ : Row → String) (df : List Row) (f : List Row → Nat) : Nat :=
  ((keysOf κ df).map (fun u => f (df.filter (fun r => κ r == u)))).sum

/-! ### Concrete tables used by counterexamples and witnesses -/

/-- Concrete one-row ops table used to refute C1 as stated. -/
def c1Table : List Row :=
  [{ unit := "Unit 6", desk := "Turbine Control Desk", staffName := "Bob JE",
     status := "Active" }]

/-- Table with one person holding `Transferred` rows in two units; used to
refute C3 as stated. -/
def c3Table : List Row :=
  [{ unit := "Unit 6", desk := "Drum Level Desk", staffName := "A JE",
     status := "Transferred" },
   { unit := "Unit 7", desk := "Drum Level Desk", staffName := "A JE",
     status := "Transferred" }]

/-- Two transferred people, distinct names, one per unit: a partition by
unit where no name spans two groups (the C3 witness input). -/
def c3GoodTable : List Row :=
  [{ unit := "Unit 6", desk := "Drum Level Desk", staffName := "A JE",
     status := "Transferred" },
   { unit := "Unit 7", desk := "Drum Level Desk", staffName := "B JE",
     status := "Transferred" }]

/-- Well-formed ops CSV whose `SAP_ID` column is all digit strings (with a
leading zero), triggering `int64` inference; used to refute C4 as stated. -/
def c4Text : String :=
  "Unit,Desk,Staff_Name,Status,Action_Required,SAP_ID\nUnit 6,Turbine Control Desk,Bob JE,Active,,007\n"

/-- The records of a parsed CSV text (empty on parse failure). -/
def rowsOf (s : String) : List (List String) := (parseCsv s).elim [] Prod.snd

/-- Ops table whose selected unit/desk already holds a vacancy row; used
to refute C7 as stated. -/
def c7Table : List Row :=
  [{ unit := "Unit 6", desk := "Drum Level Desk", staffName := "VACANT",
     status := "VACANCY" }]

example : format_staff_name "Bob JE" "" = "Bob (JE)" := by decide
example : format_staff_name "R K Sharma AE" "" = "R K Sharma (AE)" := by decide
example : format_staff_name "X DY.EE" "" = "X (DY.EE)" := by decide
example : format_staff_name "X DY EE" "" = "X (DY EE)" := by decide
example : format_staff_name "X DY. EE" "" = "X (DY. EE)" := by decide
example : format_staff_name "X ADD.EE" "" = "X (ADD.EE)" := by decide
example : format_staff_name "X ADEE" "" = "X (ADEE)" := by decide
example : format_staff_name "Bob JE (Transferred)" "" = "Bob (JE)" := by decide
example : format_staff_name "Kumar EE" "" = "Kumar (EE)" := by decide
example : format_staff_name "Bob  JE" "" = "Bob (JE)" := by decide
example : format_staff_name "VACANT POSITION" "" = "VACANT" := by decide
example : format_staff_name "Bob (Trf) JE" "" = "Bob (JE)" := by decide
example : format_staff_name "A JEevan EE" "" = "A JEevan (EE)" := by decide
example : format_staff_name "X AEE" "" = "X AEE" := by decide
example : format_staff_name "JE" "" = "JE" := by decide
example : format_staff_name "Bob JE extra" "" = "Bob (JE)" := by decide

/-! ### Helper lemmas about updateFirst -/

theorem updateFirst_split (q : Row → Bool) (f : Row → Row) (df : List Row)
    (h : ∃ r ∈ df, q r = true) :
    ∃ pre x post, df = pre ++ x :: post ∧ (∀ y ∈ pre, q y = false) ∧ q x = true ∧
      updateFirst q f df = pre ++ f x :: post := by
  induction df with
  | nil => simp at h
  | cons r rest ih =>
    by_cases hq : q r = true
    · exact ⟨[], r, rest, rfl, by simp, hq, by simp [updateFirst, hq]⟩
    · have hq' : q r = false := by simpa using hq
      obtain ⟨r', hr', hqr'⟩ := h
      rcases List.mem_cons.mp hr' with h1 | h1
      · subst h1; exact absurd hqr' hq
      · obtain ⟨pre, x, post, hdf, hpre, hx, hupd⟩ := ih ⟨r', h1, hqr'⟩
        refine ⟨r :: pre, x, post, by simp [hdf], ?_, hx, ?_⟩
        · intro y hy
          rcases List.mem_cons.mp hy with h2 | h2
          · subst h2; exact hq'
          · exact hpre y h2
        · simp [updateFirst, hq', hupd]

theorem updateFirst_length (q : Row → Bool) (f : Row → Row) (df : List Row) :
    (updateFirst q f df).length = df.length := by
  induction df with
  | nil => rfl
  | cons r rest ih =>
    by_cases hq : q r = true <;> simp [updateFirst, hq, ih]

/-! ### Order lemmas for the sort key -/

theorem lexLt_irrefl (l : List Char) : lexLt l l = false := by
  induction l with
  | nil => rfl
  | cons c t ih => simp [lexLt, ih]

theorem lexLt_trans {a b c : List Char} (h1 : lexLt a b = true)
    (h2 : lexLt b c = true) : lexLt a c = true := by
  induction a generalizing b c with
  | nil =>
    cases b with
    | nil => exact absurd h1 (by simp [lexLt])
    | cons y ys =>
      cases c with
      | nil => exact absurd h2 (by simp [lexLt])
      | cons z zs => rfl
  | cons x xs ih =>
    cases b with
    | nil => exact absurd h1 (by simp [lexLt])
    | cons y ys =>
      cases c with
      | nil => exact absurd h2 (by simp [lexLt])
      | cons z zs =>
        simp only [lexLt] at h1 h2 ⊢
        split_ifs at h1 h2 ⊢ <;> first | rfl | omega | exact ih h1 h2

theorem lexLt_conn {a b : List Char} (h1 : lexLt a b = false)
    (h2 : lexLt b a = false) : a = b := by
  induction a generalizing b with
  | nil =>
    cases b with
    | nil => rfl
    | cons y ys => exact absurd h1 (by simp [lexLt])
  | cons x xs ih =>
    cases b with
    | nil => exact absurd h2 (by simp [lexLt])
    | cons y ys =>
      by_cases hxy : x.toNat < y.toNat
      · rw [lexLt, if_pos hxy] at h1
        exact absurd h1 (by simp)
      · by_cases hyx : y.toNat < x.toNat
        · rw [lexLt, if_pos hyx] at h2
          exact absurd h2 (by simp)
        · have hx : x = y := by
            have hnat : x.toNat = y.toNat := by omega
            exact Char.eq_of_val_eq
              (UInt32.eq_of_toBitVec_eq (BitVec.eq_of_toNat_eq hnat))
          have h1' : lexLt xs ys = false := by
            rw [lexLt, if_neg hxy, if_neg hyx] at h1; exact h1
          have h2' : lexLt ys xs = false := by
            rw [lexLt, if_neg hyx, if_neg hxy] at h2; exact h2
          rw [hx, ih h1' h2']

theorem stringData_inj {a b : String} (h : a.data = b.data) : a = b := by
  cases a; cases b; exact congrArg String.mk h

instance : IsTotal Row RowLe := by
  constructor
  intro a b
  unfold RowLe rowLeB
  by_cases hn : a.staffName = b.staffName
  · rw [if_pos hn, if_pos hn.symm]
    simp only [decide_eq_true_eq]
    exact Nat.le_total _ _
  · rw [if_neg hn, if_neg (Ne.symm hn)]
    rcases hab : lexLt a.staffName.data b.staffName.data with _ | _
    · rcases hba : lexLt b.staffName.data a.staffName.data with _ | _
      · exact absurd (stringData_inj (lexLt_conn hab hba)) hn
      · right; rfl
    · left; rfl

instance : IsTrans Row RowLe := by
  constructor
  intro a b c hab hbc
  unfold RowLe rowLeB at hab hbc ⊢
  by_cases h1 : a.staffName = b.staffName
  · by_cases h2 : b.staffName = c.staffName
    · rw [if_pos h1] at hab
      rw [if_pos h2] at hbc
      rw [if_pos (h1.trans h2)]
      simp only [decide_eq_true_eq] at hab hbc ⊢
      omega
    · rw [if_neg h2] at hbc
      have h3 : a.staffName ≠ c.staffName := fun hc => h2 (h1 ▸ hc)
      rw [if_neg h3]
      rw [show a.staffName = b.staffName from h1]
      exact hbc
  · by_cases h2 : b.staffName = c.staffName
    · rw [if_neg h1] at hab
      have h3 : a.staffName ≠ c.staffName := fun hc => h1 (hc.trans h2.symm)
      rw [if_neg h3, ← h2]
      exact hab
    · rw [if_neg h1] at hab
      rw [if_neg h2] at hbc
      have hac : lexLt a.staffName.data c.staffName.data = true := lexLt_trans hab hbc
      have h3 : a.staffName ≠ c.staffName := by
        intro hc
        rw [hc] at hac
        rw [lexLt_irrefl] at hac
        exact Bool.false_ne_true hac
      rw [if_neg h3]
      exact hac

theorem sortStaff_perm (l : List Row) : List.Perm (sortStaff l) l :=
  List.perm_insertionSort RowLe l

theorem sortStaff_sorted (l : List Row) : List.Sorted RowLe (sortStaff l) :=
  List.sorted_insertionSort RowLe l

/-! ### find? and dedupFirst lemmas -/

theorem find?_decomp {α : Type} {p : α → Bool} {l : List α} {x : α}
    (h : l.find? p = some x) :
    ∃ pre post, l = pre ++ x :: post ∧ ∀ y ∈ pre, p y = false := by
  induction l with
  | nil => simp at h
  | cons a t ih =>
    by_cases ha : p a = true
    · rw [List.find?_cons_of_pos _ ha] at h
      have hax : a = x := by injection h
      subst hax
      exact ⟨[], t, rfl, by simp⟩
    · have ha' : p a = false := by simpa using ha
      rw [List.find?_cons_of_neg _ (by simp [ha'])] at h
      obtain ⟨pre, post, hl, hpre⟩ := ih h
      refine ⟨a :: pre, post, by simp [hl], ?_⟩
      intro y hy
      rcases List.mem_cons.mp hy with h1 | h1
      · subst h1; exact ha'
      · exact hpre y h1

/-- Every name kept by `dedupFirst` was not in `seen`. -/
theorem dedupFirst_names_not_seen (l : List Row) :
    ∀ (seen : List String) (y : Row), y ∈ dedupFirst seen l → y.staffName ∉ seen := by
  induction l with
  | nil => intro seen y hy; simp [dedupFirst] at hy
  | cons x xs ih =>
    intro seen y hy
    by_cases hx : x.staffName ∈ seen
    · rw [dedupFirst, if_pos hx] at hy
      exact ih seen y hy
    · rw [dedupFirst, if_neg hx] at hy
      rcases List.mem_cons.mp hy with h1 | h1
      · subst h1; exact hx
      · have := ih (x.staffName :: seen) y h1
        intro hcontra
        exact this (List.mem_cons_of_mem _ hcontra)

theorem dedupFirst_subset (l : List Row) :
    ∀ (seen : List String) (y : Row), y ∈ dedupFirst seen l → y ∈ l := by
  induction l with
  | nil => intro seen y hy; simp [dedupFirst] at hy
  | cons x xs ih =>
    intro seen y hy
    by_cases hx : x.staffName ∈ seen
    · rw [dedupFirst, if_pos hx] at hy
      exact List.mem_cons_of_mem _ (ih seen y hy)
    · rw [dedupFirst, if_neg hx] at hy
      rcases List.mem_cons.mp hy with h1 | h1
      · subst h1; exact List.mem_cons_self _ _
      · exact List.mem_cons_of_mem _ (ih _ y h1)

/-- `dedupFirst` keeps the first row per name, so `find?` by a fresh name
is unchanged. -/
theorem dedupFirst_find? (l : List Row) :
    ∀ (seen : List String) (n : String), n ∉ seen →
      (dedupFirst seen l).find? (fun r => r.staffName == n) =
        l.find? (fun r => r.staffName == n) := by
  induction l with
  | nil => intro seen n _; rfl
  | cons x xs ih =>
    intro seen n hn
    by_cases hx : x.staffName ∈ seen
    · have hne : (x.staffName == n) = false := by
        rcases hb : x.staffName == n with _ | _
        · rfl
        · exact absurd (eq_of_beq hb ▸ hx) hn
      rw [dedupFirst, if_pos hx, List.find?_cons_of_neg _ (by simp [hne]), ih seen n hn]
    · rw [dedupFirst, if_neg hx]
      rcases hb : x.staffName == n with _ | _
      · rw [List.find?_cons_of_neg _ (by simp [hb]),
          List.find?_cons_of_neg _ (by simp [hb])]
        refine ih (x.staffName :: seen) n ?_
        intro hc
        rcases List.mem_cons.mp hc with h1 | h1
        · exact absurd (h1 ▸ hb) (by simp)
        · exact hn h1
      · rw [List.find?_cons_of_pos _ (by simp_all),
          List.find?_cons_of_pos _ (by simp_all)]

/-- With a fresh name that occurs in the list, `dedupFirst` keeps exactly
one row with that name. -/
theorem dedupFirst_countP_name (l : List Row) :
    ∀ (seen : List String) (n : String), n ∉ seen → (∃ r ∈ l, r.staffName = n) →
      (dedupFirst seen l).countP (fun r => r.staffName == n) = 1 := by
  induction l with
  | nil => intro seen n _ hex; simp at hex
  | cons x xs ih =>
    intro seen n hn hex
    by_cases hx : x.staffName ∈ seen
    · rw [dedupFirst, if_pos hx]
      have hxn : x.staffName ≠ n := fun hc => hn (hc ▸ hx)
      obtain ⟨r, hr, hrn⟩ := hex
      rcases List.mem_cons.mp hr with h1 | h1
      · exact absurd (h1 ▸ hrn) hxn
      · exact ih seen n hn ⟨r, h1, hrn⟩
    · rw [dedupFirst, if_neg hx]
      rw [List.countP_cons]
      by_cases hxn : x.staffName = n
      · have hzero : (dedupFirst (x.staffName :: seen) xs).countP
            (fun r => r.staffName == n) = 0 := by
          rw [List.countP_eq_zero]
          intro y hy
          have hns := dedupFirst_names_not_seen xs (x.staffName :: seen) y hy
          have hyn : y.staffName ≠ n := by
            intro hc
            exact hns (by rw [hc, ← hxn]; exact List.mem_cons_self _ _)
          simpa using hyn
        rw [hzero]
        simp [hxn]
      · have hb : (x.staffName == n) = false := by simpa using hxn
        rw [hb]
        obtain ⟨r, hr, hrn⟩ := hex
        rcases List.mem_cons.mp hr with h1 | h1
        · exact absurd (h1 ▸ hrn) hxn
        · have := ih (x.staffName :: seen) n
            (by intro hc; rcases List.mem_cons.mp hc with h2 | h2
                · exact hxn h2.symm
                · exact hn h2) ⟨r, h1, hrn⟩
          simpa using this

/-! ### Claim C1 -/

/-- C1 is false as stated: after the admin marks Bob's seat vacant, the
affected row's `Staff_Name` is the literal `"VACANT"`, not the spec's
sentinel `"VACANT POSITION"` (the `Status` half of the claim does hold). -/
theorem C1_counterexample :
    (updateStatusOps c1Table "Unit 6" "Turbine Control Desk" "Bob JE" "VACANCY").map
        (fun r => (r.staffName, r.status)) = [("VACANT", "VACANCY")] ∧
      ¬ (updateStatusOps c1Table "Unit 6" "Turbine Control Desk" "Bob JE" "VACANCY").map
          (fun r => (r.staffName, r.status)) = [("VACANT POSITION", "VACANCY")] := by
  constructor
  · rfl
  · decide

/-- C1 (amended): after a `mark vacant` action (ops or departmental view),
the affected row — the first row matching the admin's selection — has
`Staff_Name = "VACANT"` (the code's vacant sentinel, which the vacancy
filter `str.contains("VACANT", case=False)` recognizes) and
`Status = "VACANCY"`; the rest of the table is untouched. -/
theorem C1_mark_vacant (df : List Row) (u d dept p : String) :
    ((∃ r ∈ df, opsSelect u d p r = true) →
      ∃ pre x post, df = pre ++ x :: post ∧ opsSelect u d p x = true ∧
        updateStatusOps df u d p "VACANCY" =
          pre ++ { x with staffName := "VACANT", status := "VACANCY" } :: post) ∧
    ((∃ r ∈ df, deptSelect dept p r = true) →
      ∃ pre x post, df = pre ++ x :: post ∧ deptSelect dept p x = true ∧
        updateStatusDept df dept p "VACANCY" =
          pre ++ { x with staffName := "VACANT", status := "VACANCY" } :: post) ∧
    vacantNameB "VACANT" = true := by
  refine ⟨?_, ?_, by decide⟩
  · intro h
    obtain ⟨pre, x, post, hdf, _, hx, hupd⟩ :=
      updateFirst_split (opsSelect u d p) (applyStatus "VACANCY") df h
    exact ⟨pre, x, post, hdf, hx, by simpa [applyStatus] using hupd⟩
  · intro h
    obtain ⟨pre, x, post, hdf, _, hx, hupd⟩ :=
      updateFirst_split (deptSelect dept p) (applyStatus "VACANCY") df h
    exact ⟨pre, x, post, hdf, hx, by simpa [applyStatus] using hupd⟩

/-- Witness for `C1_mark_vacant` at the concrete one-row table. -/
theorem C1_mark_vacant_witness :
    ∃ pre x post, c1Table = pre ++ x :: post ∧
      opsSelect "Unit 6" "Turbine Control Desk" "Bob JE" x = true ∧
      updateStatusOps c1Table "Unit 6" "Turbine Control Desk" "Bob JE" "VACANCY" =
        pre ++ { x with staffName := "VACANT", status := "VACANCY" } :: post :=
  (C1_mark_vacant c1Table "Unit 6" "Turbine Control Desk" "" "Bob JE").1
    ⟨{ unit := "Unit 6", desk := "Turbine Control Desk", staffName := "Bob JE",
       status := "Active" }, by decide, by decide⟩

/-! ### Claim C10 -/

/-- C10: a `Change Status` action (ops or departmental view) rewrites
exactly one row — the first row, in table order, matching the selected
person within the selected unit/desk (resp. department).  The rewritten
row keeps every column except `Status`, which becomes the new status, and
`Staff_Name`, which is overwritten (to `"VACANT"`) exactly when the new
status is `"VACANCY"`.  All earlier rows fail the selection predicate and
all other rows are returned unchanged. -/
theorem C10_change_status_frame (df : List Row) (u d dept p s : String) :
    ((∃ r ∈ df, opsSelect u d p r = true) →
      ∃ pre x post, df = pre ++ x :: post ∧ (∀ y ∈ pre, opsSelect u d p y = false) ∧
        opsSelect u d p x = true ∧
        updateStatusOps df u d p s = pre ++ applyStatus s x :: post) ∧
    ((∃ r ∈ df, deptSelect dept p r = true) →
      ∃ pre x post, df = pre ++ x :: post ∧ (∀ y ∈ pre, deptSelect dept p y = false) ∧
        deptSelect dept p x = true ∧
        updateStatusDept df dept p s = pre ++ applyStatus s x :: post) ∧
    (∀ x : Row, (applyStatus s x).status = s ∧
      (applyStatus s x).staffName = (if s = "VACANCY" then "VACANT" else x.staffName) ∧
      (applyStatus s x).unit = x.unit ∧ (applyStatus s x).desk = x.desk ∧
      (applyStatus s x).department = x.department ∧
      (applyStatus s x).designation = x.designation ∧
      (applyStatus s x).sapId = x.sapId ∧
      (applyStatus s x).actionRequired = x.actionRequired) := by
  refine ⟨fun h => updateFirst_split _ _ df h, fun h => updateFirst_split _ _ df h, ?_⟩
  intro x
  by_cases hs : s = "VACANCY" <;> simp [applyStatus, hs]

/-- Witness for `C10_change_status_frame`: a concrete status change on a
two-row table touches only the first matching row. -/
theorem C10_change_status_frame_witness :
    ∃ pre x post,
      ([{ unit := "Unit 6", desk := "Drum Level Desk", staffName := "A AE",
          status := "Active" },
        { unit := "Unit 7", desk := "Drum Level Desk", staffName := "B AE",
          status := "Active" }] : List Row) = pre ++ x :: post ∧
      (∀ y ∈ pre, opsSelect "Unit 7" "Drum Level Desk" "B AE" y = false) ∧
      opsSelect "Unit 7" "Drum Level Desk" "B AE" x = true ∧
      updateStatusOps
        [{ unit := "Unit 6", desk := "Drum Level Desk", staffName := "A AE",
           status := "Active" },
         { unit := "Unit 7", desk := "Drum Level Desk", staffName := "B AE",
           status := "Active" }] "Unit 7" "Drum Level Desk" "B AE" "Transferred" =
        pre ++ applyStatus "Transferred" x :: post :=
  (C10_change_status_frame _ "Unit 7" "Drum Level Desk" "" "B AE" "Transferred").1
    ⟨{ unit := "Unit 7", desk := "Drum Level Desk", staffName := "B AE",
       status := "Active" }, by decide, by decide⟩

/-! ### Claim C5 -/

/-- C5 is false in one respect: the missing-file failure is surfaced with
`st.error` boxes, not a warning.  At the concrete failing input (the read
raises, modelled `none`), the dashboard's empty-data messages contain an
error box and no warning box. -/
theorem C5_counterexample :
    load_data true none = emptyFrame ∧
    tab1OpsMessages (load_data true none) = [Msg.errorBox "Data Missing for Shift Ops."] ∧
    (tab1OpsMessages (load_data true none) ++
        tab1DeptMessages (load_data false none)).all
      (fun m => match m with | .warningBox _ => false | _ => true) = true := by
  refine ⟨rfl, rfl, rfl⟩

/-- C5 (amended): for a missing or unreadable file the CSV read raises,
`load_data` catches the exception and returns an empty frame rather than
propagating the error; the failure is not fatal, and tab1 surfaces it as a
user-visible *error* box (`Data Missing…`), not a warning. -/
theorem C5_load_failure_empty (isOps : Bool) :
    load_data isOps none = emptyFrame ∧
    frameEmpty (load_data isOps none) = true ∧
    tab1OpsMessages (load_data isOps none) = [Msg.errorBox "Data Missing for Shift Ops."] ∧
    tab1DeptMessages (load_data isOps none) = [Msg.errorBox "Data Missing."] := by
  refine ⟨rfl, rfl, rfl, rfl⟩

/-! ### Claim C6 -/

/-- C6: when the remote sync fails, `update_github` catches the exception,
shows the `GitHub Sync Error` message, and returns `False`; the local
write (`save_local`) has already happened — it is the first effect of the
trace, before the single sync attempt — and exactly one sync attempt is
made (no retry, no queued resync).  On a successful remote, `update_github`
returns `True`. -/
theorem C6_remote_sync_failure (df' : List Row) (filename okMsg e : String) :
    adminMutationRun df' filename okMsg (.error e) =
      (false, [.saveLocalFile filename df', .remoteSync filename,
               .showMsg (.errorBox ("GitHub Sync Error: " ++ e)),
               .showMsg (.successBox okMsg)]) ∧
    (adminMutationRun df' filename okMsg (.error e)).2.countP isRemoteSync = 1 ∧
    (adminMutationRun df' filename okMsg (.ok ())).1 = true := by
  refine ⟨rfl, rfl, rfl⟩

/-! ### Claim C7 -/

/-- C7 is false as stated: an `Add to Roster` action with a nonempty name
into a unit/desk that already holds a `VACANCY` row does *not* append —
it overwrites the vacancy row in place, leaving the row count unchanged. -/
theorem C7_counterexample :
    addToRoster c7Table "Unit 6" "Drum Level Desk" "New JE" =
      [{ unit := "Unit 6", desk := "Drum Level Desk", staffName := "New JE",
         status := "Active" }] ∧
    (addToRoster c7Table "Unit 6" "Drum Level Desk" "New JE").length = c7Table.length ∧
    ¬ (addToRoster c7Table "Unit 6" "Drum Level Desk" "New JE").length =
        c7Table.length + 1 := by
  refine ⟨rfl, rfl, by decide⟩

/-- C7 (amended): with a nonempty name, `Add to Department` always appends
one fresh row (count + 1, prefix untouched); `Add to Roster` appends one
fresh row exactly when the selected unit/desk holds no `VACANCY` row, and
otherwise reuses the first vacancy row in place (overwriting its name and
setting it `Active`, count unchanged, all other rows untouched).  No
modeled operation ever deletes a row: every handler preserves or grows the
row count. -/
theorem C7_add_staff (df : List Row) (u d dept name desg sap p s : String)
    (hname : name ≠ "") :
    (addToDepartment df dept name desg sap =
      df ++ [{ department := dept, staffName := name, designation := desg,
               sapId := sap, status := "Active", actionRequired := "" }]) ∧
    (df.countP (rosterVacSelect u d) = 0 →
      addToRoster df u d name =
        df ++ [{ unit := u, desk := d, staffName := name, status := "Active",
                 actionRequired := "" }]) ∧
    ((∃ r ∈ df, rosterVacSelect u d r = true) →
      ∃ pre x post, df = pre ++ x :: post ∧ rosterVacSelect u d x = true ∧
        addToRoster df u d name =
          pre ++ { x with staffName := name, status := "Active" } :: post ∧
        (addToRoster df u d name).length = df.length) ∧
    (updateStatusOps df u d p s).length = df.length ∧
    (updateStatusDept df dept p s).length = df.length ∧
    df.length ≤ (addToRoster df u d name).length ∧
    df.length ≤ (addToDepartment df dept name desg sap).length := by
  have hdep : addToDepartment df dept name desg sap =
      df ++ [{ department := dept, staffName := name, designation := desg,
               sapId := sap, status := "Active", actionRequired := "" }] := by
    simp [addToDepartment, hname]
  have hros : ∀ h0 : df.countP (rosterVacSelect u d) = 0,
      addToRoster df u d name =
        df ++ [{ unit := u, desk := d, staffName := name, status := "Active",
                 actionRequired := "" }] := by
    intro h0; simp [addToRoster, hname, h0]
  have hreuse : (∃ r ∈ df, rosterVacSelect u d r = true) →
      ∃ pre x post, df = pre ++ x :: post ∧ rosterVacSelect u d x = true ∧
        addToRoster df u d name =
          pre ++ { x with staffName := name, status := "Active" } :: post ∧
        (addToRoster df u d name).length = df.length := by
    intro hex
    have hpos : 0 < df.countP (rosterVacSelect u d) := List.countP_pos_iff.mpr hex
    have h0 : ¬ df.countP (rosterVacSelect u d) = 0 := by omega
    obtain ⟨pre, x, post, hdf, _, hx, hupd⟩ :=
      updateFirst_split (rosterVacSelect u d)
        (fun r => { r with staffName := name, status := "Active" }) df hex
    have heq : addToRoster df u d name =
        pre ++ { x with staffName := name, status := "Active" } :: post := by
      simp [addToRoster, hname, h0, hupd]
    refine ⟨pre, x, post, hdf, hx, heq, ?_⟩
    rw [heq, hdf]; simp
  refine ⟨hdep, hros, hreuse, updateFirst_length _ _ df, updateFirst_length _ _ df, ?_, ?_⟩
  · by_cases h0 : df.countP (rosterVacSelect u d) = 0
    · rw [hros h0]; simp
    · have hex : ∃ r ∈ df, rosterVacSelect u d r = true := by
        refine List.countP_pos_iff.mp ?_
        omega
      obtain ⟨_, _, _, _, _, _, hlen⟩ := hreuse hex
      omega
  · rw [hdep]; simp

/-- Witness for `C7_add_staff`: a concrete vacancy-reuse on `c7Table`. -/
theorem C7_add_staff_witness :
    ∃ pre x post, c7Table = pre ++ x :: post ∧
      rosterVacSelect "Unit 6" "Drum Level Desk" x = true ∧
      addToRoster c7Table "Unit 6" "Drum Level Desk" "New JE" =
        pre ++ { x with staffName := "New JE", status := "Active" } :: post ∧
      (addToRoster c7Table "Unit 6" "Drum Level Desk" "New JE").length =
        c7Table.length :=
  (C7_add_staff c7Table "Unit 6" "Drum Level Desk" "HR" "New JE" "JE" "" "P" "Active"
      (by decide)).2.2.1
    ⟨{ unit := "Unit 6", desk := "Drum Level Desk", staffName := "VACANT",
       status := "VACANCY" }, by decide, by decide⟩

/-! ### Claim C8 -/

/-- C8: the admin flag becomes true only by entering the exact hardcoded
password `"admin123"`.  Any event sequence that never submits that
password leaves a fresh session unchanged — still locked out, with both
data frames untouched, so no mutation is reachable — and a single step can
only turn the flag on via the correct-password login event. -/
theorem C8_password_gate (ops dept : List Row) (es : List Event)
    (h : Event.loginAttempt "admin123" ∉ es) :
    runEvents (initState ops dept) es = initState ops dept ∧
    (∀ st e, (step st e).adminLoggedIn = true →
      st.adminLoggedIn = true ∨ e = Event.loginAttempt "admin123") := by
  constructor
  · induction es with
    | nil => rfl
    | cons e es' ih =>
      have he : e ≠ Event.loginAttempt "admin123" := by
        intro hcontra; exact h (hcontra ▸ List.mem_cons_self e es')
      have hes' : Event.loginAttempt "admin123" ∉ es' := by
        intro hmem; exact h (List.mem_cons_of_mem e hmem)
      have hstep : step (initState ops dept) e = initState ops dept := by
        cases e with
        | loginAttempt pw =>
          have hpw : (pw == "admin123") = false := by
            rcases hb : pw == "admin123" with _ | _
            · rfl
            · exact absurd (by rw [eq_of_beq hb]) he
          simp [step, initState, hpw]
        | logout => simp [step, initState]
        | opsChangeStatus u d p s => simp [step, initState]
        | deptChangeStatus d p s => simp [step, initState]
        | opsAddPerson u d n => simp [step, initState]
        | deptAddPerson d n g sp => simp [step, initState]
      show runEvents (step (initState ops dept) e) es' = initState ops dept
      rw [hstep]
      exact ih hes'
  · intro st e hflag
    cases e with
    | loginAttempt pw =>
      by_cases hc : (!st.adminLoggedIn && (pw == "admin123")) = true
      · right
        have h2 : pw = "admin123" := by
          simp only [Bool.and_eq_true, beq_iff_eq] at hc
          exact hc.2
        rw [h2]
      · left
        simp only [step, if_neg hc] at hflag
        exact hflag
    | logout =>
      left
      by_cases hA : st.adminLoggedIn = true
      · exact hA
      · simp only [step, if_neg hA] at hflag
        exact hflag
    | opsChangeStatus u d p s =>
      left
      by_cases hA : st.adminLoggedIn = true
      · exact hA
      · simp only [step, if_neg hA] at hflag
        exact hflag
    | deptChangeStatus d p s =>
      left
      by_cases hA : st.adminLoggedIn = true
      · exact hA
      · simp only [step, if_neg hA] at hflag
        exact hflag
    | opsAddPerson u d n =>
      left
      by_cases hA : st.adminLoggedIn = true
      · exact hA
      · simp only [step, if_neg hA] at hflag
        exact hflag
    | deptAddPerson d n g sp =>
      left
      by_cases hA : st.adminLoggedIn = true
      · exact hA
      · simp only [step, if_neg hA] at hflag
        exact hflag

/-- Witness for `C8_password_gate`: a wrong-password login followed by a
mutation attempt changes nothing in a fresh session. -/
theorem C8_password_gate_witness :
    runEvents (initState c1Table []) [Event.loginAttempt "letmein",
      Event.opsChangeStatus "Unit 6" "Turbine Control Desk" "Bob JE" "VACANCY",
      Event.loginAttempt "ADMIN123"] = initState c1Table [] ∧
    (∀ st e, (step st e).adminLoggedIn = true →
      st.adminLoggedIn = true ∨ e = Event.loginAttempt "admin123") :=
  C8_password_gate c1Table [] _ (by decide)

/-! ### Claim C4 (counterexample half; the amended round-trip follows later) -/

theorem statusRank_le_two (s : String) : statusRank s ≤ 2 := by
  unfold statusRank; split <;> omega

theorem statusRank_transferred : statusRank "Transferred" = 2 := by decide

/-- Only `Transferred` among the valid statuses contains `Transferred`. -/
theorem valid_contains_transferred {s : String} (hv : s ∈ validStatusList)
    (hc : containsStr s "Transferred" = true) : s = "Transferred" := by
  simp only [validStatusList, List.mem_cons, List.not_mem_nil, or_false] at hv
  rcases hv with h | h | h | h
  · subst h; exact absurd hc (by decide)
  · exact h
  · subst h; exact absurd hc (by decide)
  · subst h; exact absurd hc (by decide)

theorem mem_staffOnly_of {df : List Row} {r : Row} (hr : r ∈ df)
    (hnv : vacantNameB r.staffName = false) :
    ∃ x ∈ staffOnly df, x.staffName = pyStrip r.staffName ∧ x.status = r.status := by
  refine ⟨{ r with staffName := pyStrip r.staffName }, ?_, rfl, rfl⟩
  unfold staffOnly
  exact List.mem_map_of_mem _ (List.mem_filter.mpr ⟨hr, by simp [hnv]⟩)

theorem staffOnly_status_valid {df : List Row} (hv : ValidStatuses df) :
    ∀ x ∈ staffOnly df, x.status ∈ validStatusList := by
  intro x hx
  unfold staffOnly at hx
  obtain ⟨r, hr, hxr⟩ := List.mem_map.mp hx
  have hval := hv r (List.mem_filter.mp hr).1
  rw [← hxr]
  simpa using hval

/-- The deduplication representative of a name carries the maximal
`Status_Rank` among that name's rows: it is the first row of the sorted
list with that name, and sorting puts higher ranks first within a name. -/
theorem rep_max_rank {L : List Row} {n : String} {x : Row}
    (hs : List.Sorted RowLe L)
    (hfind : L.find? (fun r => r.staffName == n) = some x) :
    ∀ t ∈ L, t.staffName = n → statusRank t.status ≤ statusRank x.status := by
  obtain ⟨pre, post, hL, hpre⟩ := find?_decomp hfind
  have hpx := List.find?_some hfind
  have hxn : x.staffName = n := eq_of_beq hpx
  intro t ht htn
  subst hL
  rcases List.mem_append.mp ht with h1 | h1
  · have hf := hpre t h1
    rw [htn] at hf
    simp at hf
  · rcases List.mem_cons.mp h1 with h2 | h2
    · subst h2; exact Nat.le_refl _
    · have hsub : List.Pairwise RowLe (x :: post) :=
        List.Pairwise.sublist (List.sublist_append_right pre (x :: post)) hs
      have hle : RowLe x t := List.rel_of_pairwise_cons hsub h2
      unfold RowLe rowLeB at hle
      rw [if_pos (by rw [hxn, htn])] at hle
      simpa using hle

/-- Split a count along a second predicate. -/
theorem countP_and_split {α : Type} (l : List α) (q p : α → Bool) :
    l.countP q = l.countP (fun a => q a && p a) + l.countP (fun a => q a && !p a) := by
  induction l with
  | nil => rfl
  | cons a t ih =>
    simp only [List.countP_cons]
    rcases hq : q a with _ | _ <;> rcases hp : p a with _ | _ <;>
      simp [hq, hp] <;> omega

/-! ### Claim C2 -/

theorem dedupNames_mem (ns : List String) :
    ∀ (seen : List String) (m : String),
      m ∈ dedupNames seen ns ↔ m ∈ ns ∧ m ∉ seen := by
  induction ns with
  | nil => intro seen m; simp [dedupNames]
  | cons n ns' ih =>
    intro seen m
    by_cases hn : n ∈ seen
    · rw [dedupNames, if_pos hn, ih seen m]
      constructor
      · rintro ⟨h1, h2⟩; exact ⟨List.mem_cons_of_mem _ h1, h2⟩
      · rintro ⟨h1, h2⟩
        rcases List.mem_cons.mp h1 with h3 | h3
        · subst h3; exact absurd hn h2
        · exact ⟨h3, h2⟩
    · rw [dedupNames, if_neg hn]
      constructor
      · intro hm
        rcases List.mem_cons.mp hm with h3 | h3
        · subst h3; exact ⟨List.mem_cons_self _ _, hn⟩
        · have h4 := (ih (n :: seen) m).mp h3
          exact ⟨List.mem_cons_of_mem _ h4.1,
            fun hc => h4.2 (List.mem_cons_of_mem _ hc)⟩
      · rintro ⟨h1, h2⟩
        by_cases hmn : m = n
        · subst hmn; exact List.mem_cons_self _ _
        · rcases List.mem_cons.mp h1 with h3 | h3
          · exact absurd h3 hmn
          · refine List.mem_cons_of_mem _ ((ih (n :: seen) m).mpr ⟨h3, ?_⟩)
            intro hc
            rcases List.mem_cons.mp hc with h4 | h4
            · exact hmn h4
            · exact h2 h4

theorem dedupNames_nodup (ns : List String) :
    ∀ seen, (dedupNames seen ns).Nodup := by
  induction ns with
  | nil => intro seen; exact List.nodup_nil
  | cons n ns' ih =>
    intro seen
    by_cases hn : n ∈ seen
    · rw [dedupNames, if_pos hn]; exact ih seen
    · rw [dedupNames, if_neg hn]
      refine List.nodup_cons.mpr ⟨?_, ih (n :: seen)⟩
      intro hc
      exact ((dedupNames_mem ns' (n :: seen) n).mp hc).2 (List.mem_cons_self _ _)

/-- The deduplicated count collapses to a count over distinct names of a
predicate on the name's first (representative) row. -/
theorem countP_dedupFirst (l : List Row) :
    ∀ (seen : List String) (q : Row → Bool),
      (dedupFirst seen l).countP q =
        (dedupNames seen (l.map (fun r => r.staffName))).countP
          (fun n => ((l.find? (fun r => r.staffName == n)).map q).getD false) := by
  induction l with
  | nil => intro seen q; rfl
  | cons x xs ih =>
    intro seen q
    by_cases hx : x.staffName ∈ seen
    · rw [dedupFirst, if_pos hx, List.map_cons, dedupNames, if_pos hx, ih seen q]
      apply List.countP_congr
      intro n hn
      have hnm := (dedupNames_mem _ seen n).mp hn
      have hne : (x.staffName == n) = false := by
        rcases hb : x.staffName == n with _ | _
        · rfl
        · have hxeq : x.staffName = n := eq_of_beq hb
          exact absurd (hxeq ▸ hx) hnm.2
      rw [List.find?_cons_of_neg _ (by simp [hne])]
    · rw [dedupFirst, if_neg hx, List.map_cons, dedupNames, if_neg hx,
        List.countP_cons, List.countP_cons]
      congr 1
      · rw [ih (x.staffName :: seen) q]
        apply List.countP_congr
        intro n hn
        have hnm := (dedupNames_mem _ _ n).mp hn
        have hne : (x.staffName == n) = false := by
          rcases hb : x.staffName == n with _ | _
          · rfl
          · have hxeq : x.staffName = n := eq_of_beq hb
            exact absurd (hxeq ▸ List.mem_cons_self x.staffName seen) hnm.2
        rw [List.find?_cons_of_neg _ (by simp [hne])]
      · rw [List.find?_cons_of_pos _ (by simp)]
        simp

/-- Counting over duplicate-free lists only depends on membership. -/
theorem countP_eq_of_nodup_mem_iff {l1 l2 : List String}
    (h1 : l1.Nodup) (h2 : l2.Nodup) (hm : ∀ a, a ∈ l1 ↔ a ∈ l2)
    (p : String → Bool) : l1.countP p = l2.countP p := by
  rw [List.countP_eq_length_filter, List.countP_eq_length_filter]
  have hf1 : (l1.filter p).Nodup := h1.filter p
  have hf2 : (l2.filter p).Nodup := h2.filter p
  have hfs : (l1.filter p).toFinset = (l2.filter p).toFinset := by
    apply Finset.ext
    intro a
    simp only [List.mem_toFinset, List.mem_filter]
    rw [hm a]
  rw [← List.toFinset_card_of_nodup hf1, ← List.toFinset_card_of_nodup hf2, hfs]

/-- Summing a count over the fibers of a key exhausts the whole count. -/
theorem countP_partition {α : Type} (key : α → String) (q : α → Bool) :
    ∀ us : List String, us.Nodup → ∀ l : List α, (∀ a ∈ l, key a ∈ us) →
      ((us.map (fun u => (l.filter (fun a => key a == u)).countP q)).sum =
        l.countP q) := by
  intro us
  induction us with
  | nil =>
    intro _ l hl
    have hnil : l = [] := by
      cases l with
      | nil => rfl
      | cons a t => exact absurd (hl a (List.mem_cons_self a t)) (List.not_mem_nil _)
    subst hnil; rfl
  | cons u us' ih =>
    intro hnd l hl
    rw [List.map_cons, List.sum_cons]
    have hnd' : us'.Nodup := (List.nodup_cons.mp hnd).2
    have hu : u ∉ us' := (List.nodup_cons.mp hnd).1
    have htail : (us'.map (fun v => (l.filter (fun a => key a == v)).countP q)) =
        (us'.map (fun v => ((l.filter (fun a => !(key a == u))).filter
          (fun a => key a == v)).countP q)) := by
      apply List.map_congr_left
      intro v hv
      congr 1
      rw [List.filter_filter]
      apply List.filter_congr
      intro a _
      rcases hk : key a == v with _ | _
      · simp
      · have hkv : key a = v := eq_of_beq hk
        have hvu : v ≠ u := fun hc => hu (hc ▸ hv)
        have hku : (key a == u) = false := by
          rcases hk2 : key a == u with _ | _
          · rfl
          · exact absurd (hkv ▸ eq_of_beq hk2) hvu
        simp [hku]
    rw [htail, ih hnd' (l.filter (fun a => !(key a == u)))
      (by
        intro a ha
        have hmem := List.mem_filter.mp ha
        rcases List.mem_cons.mp (hl a hmem.1) with h1 | h1
        · exfalso
          have hfa := hmem.2
          simp [h1] at hfa
        · exact h1)]
    rw [List.countP_filter, List.countP_filter]
    exact (countP_and_split l q (fun a => key a == u)).symm

/-! ### The transferred-count characterization -/

theorem staffOnly_mem_rev {df : List Row} {x : Row} (hx : x ∈ staffOnly df) :
    ∃ r ∈ df, x = { r with staffName := pyStrip r.staffName } := by
  unfold staffOnly at hx
  obtain ⟨r, hr, hxr⟩ := List.mem_map.mp hx
  exact ⟨r, (List.mem_filter.mp hr).1, hxr.symm⟩

/-- Under the documented status domain, the transferred count of
`calculate_metrics` is exactly the number of distinct (stripped,
non-vacant) names having at least one row with status `Transferred`. -/
theorem transferredCount_characterization {df : List Row} (hv : ValidStatuses df) :
    transferredCount df = (namesOf df).countP (hasTransferredName df) := by
  rw [transferredCount, uniqueStaff, countP_dedupFirst]
  have hperm := sortStaff_perm (staffOnly df)
  rw [List.countP_congr (fun n hn => ?_)]
  · apply countP_eq_of_nodup_mem_iff (dedupNames_nodup _ _) (dedupNames_nodup _ _)
    intro a
    rw [dedupNames_mem, dedupNames_mem]
    simp only [List.not_mem_nil, not_false_iff, and_true, List.mem_map]
    constructor
    · rintro ⟨r, hr, hrn⟩; exact ⟨r, hperm.mem_iff.mp hr, hrn⟩
    · rintro ⟨r, hr, hrn⟩; exact ⟨r, hperm.mem_iff.mpr hr, hrn⟩
  · -- the representative's transferred flag equals the name's transferred flag
    have hmem := (dedupNames_mem _ _ n).mp hn
    obtain ⟨r0, hr0, hr0n⟩ := List.mem_map.mp hmem.1
    have hfindSome : ((sortStaff (staffOnly df)).find?
        (fun r => r.staffName == n)).isSome := by
      rw [List.find?_isSome]
      exact ⟨r0, hr0, by simp [hr0n]⟩
    obtain ⟨x, hfind⟩ := Option.isSome_iff_exists.mp hfindSome
    rw [hfind]
    have hpx := List.find?_some hfind
    have hxn : x.staffName = n := eq_of_beq hpx
    have hxmem : x ∈ staffOnly df := hperm.mem_iff.mp (List.mem_of_find?_eq_some hfind)
    simp only [Option.map_some', Option.getD_some]
    rcases hT : hasTransferredName df n with _ | _
    · rcases hxs : x.status == "Transferred" with _ | _
      · rfl
      · exfalso
        have hxT : x.status = "Transferred" := eq_of_beq hxs
        have hany : (staffOnly df).any
            (fun r => r.staffName == n && r.status == "Transferred") = true := by
          rw [List.any_eq_true]
          exact ⟨x, hxmem, by simp [hxn, hxT]⟩
        rw [hasTransferredName] at hT
        rw [hT] at hany
        exact Bool.false_ne_true hany
    · rw [hasTransferredName, List.any_eq_true] at hT
      obtain ⟨t, ht, hpt⟩ := hT
      have htn : t.staffName = n := eq_of_beq ((Bool.and_eq_true _ _).mp hpt).1
      have hts : t.status = "Transferred" := eq_of_beq ((Bool.and_eq_true _ _).mp hpt).2
      have htsorted : t ∈ sortStaff (staffOnly df) := hperm.mem_iff.mpr ht
      have hle := rep_max_rank (sortStaff_sorted (staffOnly df)) hfind t htsorted htn
      rw [hts, statusRank_transferred] at hle
      have h2 := statusRank_le_two x.status
      have hrank : statusRank x.status = 2 := by omega
      have hcontains : containsStr x.status "Transferred" = true := by
        by_contra hc
        rw [statusRank, if_neg (by simpa using hc)] at hrank
        omega
      have hxT : x.status = "Transferred" :=
        valid_contains_transferred (staffOnly_status_valid hv x hxmem) hcontains
      simp [hxT]

theorem staffOnly_filter_key {df : List Row} {κ : Row → String}
    (hκ : ∀ r : Row, κ { r with staffName := pyStrip r.staffName } = κ r)
    (u : String) :
    staffOnly (df.filter (fun r => κ r == u)) =
      (staffOnly df).filter (fun r => κ r == u) := by
  unfold staffOnly
  rw [List.filter_map]
  congr 1
  have hQF : ((fun r => κ r == u) ∘
      (fun r : Row => { r with staffName := pyStrip r.staffName })) =
      (fun r : Row => κ r == u) := by
    funext r
    simp only [Function.comp_apply]
    rw [hκ r]
  rw [hQF, List.filter_filter, List.filter_filter]
  apply List.filter_congr
  intro a _
  exact Bool.and_comm _ _

/-! ### Claim C3 -/

theorem splitOnChar_ne_nil (sep : Char) (l : List Char) : splitOnChar sep l ≠ [] := by
  cases l with
  | nil => simp [splitOnChar]
  | cons c rest =>
    rw [splitOnChar]
    rcases h : splitOnChar sep rest with _ | ⟨h1, t1⟩
    · simp
    · by_cases hc : c = sep <;> simp [hc]

theorem splitOnChar_no_sep {sep : Char} {l : List Char} (h : sep ∉ l) :
    splitOnChar sep l = [l] := by
  induction l with
  | nil => rfl
  | cons c rest ih =>
    have hc : c ≠ sep := fun hcc => h (hcc ▸ List.mem_cons_self c rest)
    have hrest : sep ∉ rest := fun hr => h (List.mem_cons_of_mem c hr)
    rw [splitOnChar, ih hrest]
    simp [hc]

theorem splitOnChar_append {sep : Char} {x : List Char} (hx : sep ∉ x)
    (rest : List Char) :
    splitOnChar sep (x ++ sep :: rest) = x :: splitOnChar sep rest := by
  induction x with
  | nil =>
    rw [List.nil_append, splitOnChar]
    rcases h : splitOnChar sep rest with _ | ⟨h1, t1⟩
    · exact absurd h (splitOnChar_ne_nil sep rest)
    · simp
  | cons c x' ih =>
    have hc : c ≠ sep := fun hcc => hx (hcc ▸ List.mem_cons_self c x')
    have hx' : sep ∉ x' := fun hr => hx (List.mem_cons_of_mem c hr)
    rw [List.cons_append, splitOnChar, ih hx']
    simp [hc]

theorem splitOnChar_join {sep : Char} :
    ∀ parts : List (List Char), parts ≠ [] → (∀ p ∈ parts, sep ∉ p) →
      splitOnChar sep (joinWithChar sep parts) = parts := by
  intro parts
  induction parts with
  | nil => intro h _; exact absurd rfl h
  | cons x t ih =>
    intro _ hno
    cases t with
    | nil =>
      rw [joinWithChar]
      exact splitOnChar_no_sep (hno x (List.mem_cons_self x []))
    | cons y t' =>
      rw [joinWithChar, splitOnChar_append (hno x (List.mem_cons_self x _))]
      rw [ih (by simp) (fun p hp => hno p (List.mem_cons_of_mem x hp))]

theorem joinWithChar_append_nil (sep : Char) :
    ∀ parts : List (List Char), parts ≠ [] →
      joinWithChar sep parts ++ [sep] = joinWithChar sep (parts ++ [[]]) := by
  intro parts
  induction parts with
  | nil => intro h; exact absurd rfl h
  | cons x t ih =>
    intro _
    cases t with
    | nil => rfl
    | cons y t' =>
      show (x ++ sep :: joinWithChar sep (y :: t')) ++ [sep] =
        x ++ sep :: joinWithChar sep ((y :: t') ++ [[]])
      rw [List.append_assoc, List.cons_append]
      rw [ih (by simp)]

theorem stringMk_data (s : String) : String.mk s.data = s := by
  cases s; rfl

/-- `getD` over the index range rebuilds a list. -/
theorem range_map_getD (r : List String) :
    (List.range r.length).map (fun j => r.getD j "") = r := by
  induction r with
  | nil => rfl
  | cons a t ih =>
    have hcomp : ((fun j => (a :: t).getD j "") ∘ Nat.succ) =
        (fun j => t.getD j "") := by
      funext j
      simp [Function.comp]
    rw [List.length_cons, List.range_succ_eq_map, List.map_cons, List.map_map,
      hcomp, ih]
    rfl

/-! ### Claim C4 (amended round trip) -/

/-- All cells of all lines are free of CSV metacharacters. -/
def PlainCells (lines : List (List String)) : Prop :=
  ∀ line ∈ lines, ∀ f ∈ line, ∀ c ∈ f.data, ¬ (c = ',' ∨ c = '"' ∨ c = '\n')

instance (lines : List (List String)) : Decidable (PlainCells lines) := by
  unfold PlainCells; infer_instance

/-- No column of the records is re-typed by pandas: none is inferred
`int64`, `float64` or boolean, so every column stays object/text. -/
def ObjectColumns (header : List String) (rows : List (List String)) : Prop :=
  ∀ j < header.length,
    colIsInt (colOf rows j) = false ∧ colIsFloat (colOf rows j) = false ∧
      colIsBool (colOf rows j) = false

instance (header : List String) (rows : List (List String)) :
    Decidable (ObjectColumns header rows) := by
  unfold ObjectColumns; infer_instance

/-- No nonempty cell of the records spells one of pandas' NA markers, so
the NaN conversion plus `fillna("")` rewrites nothing. -/
def NoNAMarkers (rows : List (List String)) : Prop :=
  ∀ r ∈ rows, ∀ f ∈ r, isNA f = true → f = ""

instance (rows : List (List String)) : Decidable (NoNAMarkers rows) := by
  unfold NoNAMarkers; infer_instance

theorem encodeLine_no_newline {line : List String}
    (h : ∀ f ∈ line, ∀ c ∈ f.data, ¬ (c = ',' ∨ c = '"' ∨ c = '\n')) :
    '\n' ∉ encodeLine line := by
  induction line with
  | nil =>
    show '\n' ∉ ([] : List Char)
    simp
  | cons f t ih =>
    cases t with
    | nil =>
      intro hmem
      have hmem' : '\n' ∈ f.data := hmem
      exact (h f (List.mem_cons_self f [])) '\n' hmem' (by simp)
    | cons g t' =>
      intro hmem
      have hmem' : '\n' ∈ f.data ++ ',' :: encodeLine (g :: t') := hmem
      rcases List.mem_append.mp hmem' with h1 | h1
      · exact (h f (List.mem_cons_self f _)) '\n' h1 (by simp)
      · rcases List.mem_cons.mp h1 with h2 | h2
        · simp at h2
        · exact ih (fun f' hf' => h f' (List.mem_cons_of_mem f hf')) h2

theorem encodeLine_ne_nil {line : List String} (h : 2 ≤ line.length) :
    encodeLine line ≠ [] := by
  rcases line with _ | ⟨f, _ | ⟨g, t⟩⟩
  · simp at h
  · simp at h
  · intro hc
    have hc' : f.data ++ ',' :: encodeLine (g :: t) = [] := hc
    have := List.append_eq_nil.mp hc'
    simp at this

theorem encodeLine_no_comma_cells {line : List String}
    (h : ∀ f ∈ line, ∀ c ∈ f.data, ¬ (c = ',' ∨ c = '"' ∨ c = '\n')) :
    ∀ d ∈ line.map String.data, ',' ∉ d := by
  intro d hd hcm
  obtain ⟨f, hf, hfd⟩ := List.mem_map.mp hd
  exact (h f hf) ',' (hfd ▸ hcm) (by simp)

/-- A cell that is not a nonempty NA marker survives the NaN conversion
and `fillna("")` unchanged. -/
theorem naNorm_id {f : String} (h : isNA f = true → f = "") : naNorm f = f := by
  rw [naNorm]
  by_cases hf : isNA f = true
  · rw [if_pos hf, h hf]
  · rw [if_neg hf]

theorem dropTrailWS_cons_eq (c : Char) (l : List Char) :
    dropTrailWS (c :: l) = match dropTrailWS l with
      | [] => if isWS c then [] else [c]
      | r => c :: r := rfl

theorem dropTrailWS_cons_of_ne {c : Char} {l : List Char}
    (h : dropTrailWS l ≠ []) : dropTrailWS (c :: l) = c :: dropTrailWS l := by
  rw [dropTrailWS_cons_eq]
  cases hl : dropTrailWS l with
  | nil => exact absurd hl h
  | cons d ds => rfl

theorem dropTrailWS_cons_nonws {c : Char} {l : List Char}
    (h : isWS c = false) : dropTrailWS (c :: l) = c :: dropTrailWS l := by
  rw [dropTrailWS_cons_eq]
  cases hl : dropTrailWS l with
  | nil => simp [h]
  | cons d ds => rfl

theorem dropTrailWS_allws {l : List Char} (h : ∀ c ∈ l, isWS c = true) :
    dropTrailWS l = [] := by
  induction l with
  | nil => rfl
  | cons c t ih =>
    rw [dropTrailWS_cons_eq, ih (fun x hx => h x (List.mem_cons_of_mem c hx))]
    simp [h c (List.mem_cons_self c t)]

theorem dropTrailWS_ne_nil {l : List Char} (h : ∃ c ∈ l, isWS c = false) :
    dropTrailWS l ≠ [] := by
  induction l with
  | nil => simp at h
  | cons c t ih =>
    obtain ⟨x, hx, hxw⟩ := h
    rcases List.mem_cons.mp hx with h1 | h1
    · subst h1
      rw [dropTrailWS_cons_eq]
      cases hl : dropTrailWS t with
      | nil => simp [hxw]
      | cons d ds => simp
    · rw [dropTrailWS_cons_of_ne (ih ⟨x, h1, hxw⟩)]
      simp

theorem dropTrailWS_of_cons_eq {c : Char} {l : List Char}
    (h : dropTrailWS (c :: l) = c :: l) : dropTrailWS l = l := by
  by_cases hne : dropTrailWS l = []
  · have h1 : dropTrailWS (c :: l) = (if isWS c then [] else [c]) := by
      show (match dropTrailWS l with
        | [] => if isWS c then [] else [c]
        | r => c :: r) = _
      rw [hne]
    rw [h1] at h
    by_cases hc : isWS c = true
    · rw [if_pos hc] at h
      exact absurd h.symm (List.cons_ne_nil c l)
    · rw [if_neg hc] at h
      have h3 : l = [] := by
        have hlen := congrArg List.length h
        simp only [List.length_cons, List.length_nil] at hlen
        exact List.length_eq_zero.mp (by omega)
      subst h3
      rfl
  · rw [dropTrailWS_cons_of_ne hne] at h
    exact (List.cons.inj h).2

theorem dropTrailWS_append {y : List Char} (hy : dropTrailWS y = y) (hyne : y ≠ []) :
    ∀ x : List Char, dropTrailWS (x ++ y) = x ++ y := by
  intro x
  induction x with
  | nil => simpa using hy
  | cons c x' ih =>
    rw [List.cons_append, dropTrailWS_cons_of_ne (by rw [ih]; simp [hyne]), ih]

theorem dropTrailWS_length_le (l : List Char) : (dropTrailWS l).length ≤ l.length := by
  induction l with
  | nil => exact Nat.le_refl _
  | cons c t ih =>
    rw [dropTrailWS_cons_eq]
    cases hl : dropTrailWS t with
    | nil => by_cases hc : isWS c <;> simp [hc]
    | cons d ds =>
      rw [hl] at ih
      simp only [List.length_cons] at ih ⊢
      omega

theorem dropLeadWS_length_le (l : List Char) : (dropLeadWS l).length ≤ l.length := by
  induction l with
  | nil => exact Nat.le_refl _
  | cons c t ih =>
    unfold dropLeadWS at ih ⊢
    rw [List.dropWhile_cons]
    by_cases hc : isWS c = true <;> simp [hc]
    · omega

theorem dropLeadWS_eq_of_length {l : List Char}
    (h : (dropLeadWS l).length = l.length) : dropLeadWS l = l := by
  cases l with
  | nil => rfl
  | cons c t =>
    unfold dropLeadWS at h ⊢
    rw [List.dropWhile_cons] at h ⊢
    by_cases hc : isWS c = true
    · rw [if_pos hc] at h
      have := dropLeadWS_length_le t
      unfold dropLeadWS at this
      simp at h
      omega
    · rw [if_neg hc]

theorem dropTrailWS_eq_of_length {l : List Char}
    (h : (dropTrailWS l).length = l.length) : dropTrailWS l = l := by
  induction l with
  | nil => rfl
  | cons c t ih =>
    cases hl : dropTrailWS t with
    | nil =>
      have h1 : dropTrailWS (c :: t) = (if isWS c then [] else [c]) := by
        show (match dropTrailWS t with
          | [] => if isWS c then [] else [c]
          | r => c :: r) = _
        rw [hl]
      rw [h1] at h ⊢
      by_cases hc : isWS c = true
      · rw [if_pos hc] at h
        simp at h
      · rw [if_neg hc] at h ⊢
        have hlen : (1 : Nat) = t.length + 1 := by simpa using h
        have ht : t = [] := List.length_eq_zero.mp (by omega)
        subst ht
        rfl
    | cons d ds =>
      have hne : dropTrailWS t ≠ [] := by rw [hl]; simp
      rw [dropTrailWS_cons_of_ne hne] at h ⊢
      simp only [List.length_cons] at h
      rw [ih (by omega)]

theorem trimChars_parts {l : List Char} (h : trimChars l = l) :
    dropLeadWS l = l ∧ dropTrailWS l = l := by
  have h1 := dropLeadWS_length_le l
  have h2 := dropTrailWS_length_le (dropLeadWS l)
  have hlen : (trimChars l).length = l.length := by rw [h]
  unfold trimChars at hlen
  have hL : dropLeadWS l = l := dropLeadWS_eq_of_length (by omega)
  refine ⟨hL, ?_⟩
  unfold trimChars at h
  rw [hL] at h
  exact h

theorem head_nonws_of_dropLead {c : Char} {l : List Char}
    (h : dropLeadWS (c :: l) = c :: l) : isWS c = false := by
  by_contra hc
  have hc' : isWS c = true := by simpa using hc
  unfold dropLeadWS at h
  rw [List.dropWhile_cons, if_pos hc'] at h
  have := congrArg List.length h
  have hle := dropLeadWS_length_le l
  unfold dropLeadWS at hle
  simp at this
  omega

/-! ### Suffix-token failure lemmas -/

theorem noBadPairs_tail {a : Char} {l : List Char}
    (h : noBadPairs (a :: l) = true) : noBadPairs l = true := by
  cases l with
  | nil => rfl
  | cons b t =>
    have h' : (!badPair a b && noBadPairs (b :: t)) = true := h
    exact ((Bool.and_eq_true _ _).mp h').2

theorem noBadPairs_head {a b : Char} {l : List Char}
    (h : noBadPairs (a :: b :: l) = true) : badPair a b = false := by
  have h' : (!badPair a b && noBadPairs (b :: l)) = true := h
  have := ((Bool.and_eq_true _ _).mp h').1
  simpa using this

theorem badPair_snd_ws {a c : Char} (h : isWS c = true) : badPair a c = false := by
  have hc : c = ' ' ∨ c = '\t' ∨ c = '\r' ∨ c = '\n' := by
    unfold isWS Char.isWhitespace at h
    simp only [Bool.or_eq_true, decide_eq_true_eq] at h
    tauto
  rcases hc with h1 | h1 | h1 | h1 <;> subst h1 <;> simp [badPair]

theorem matchLit2_none {x y : Char} {ps : List Char} {a b : Char} {t : List Char}
    (h : (x.toUpper == a.toUpper && (y.toUpper == b.toUpper)) = false) :
    matchLit (x :: y :: ps) (a :: b :: t) = none := by
  rcases hxa : (x.toUpper == a.toUpper) with _ | _
  · show (if ciEq x a then _ else none) = none
    rw [if_neg (by simp [ciEq, hxa])]
  · rcases hyb : (y.toUpper == b.toUpper) with _ | _
    · show (if ciEq x a then ((matchLit (y :: ps) (b :: t)).map _) else none) = none
      rw [if_pos (by simp [ciEq, hxa])]
      have hinner : matchLit (y :: ps) (b :: t) = none := by
        show (if ciEq y b then _ else none) = none
        rw [if_neg (by simp [ciEq, hyb])]
      rw [hinner]
      rfl
    · rw [hxa, hyb] at h
      simp at h

theorem tryTokenB_none {a b : Char} {t : List Char} (h : badPair a b = false) :
    tryTokenB (a :: b :: t) = none := by
  unfold badPair at h
  simp only [Bool.or_eq_false_iff] at h
  obtain ⟨⟨⟨⟨hJE, hAE⟩, hDY⟩, hAD⟩, hEE⟩ := h
  have mJE : matchLit ['J', 'E'] (a :: b :: t) = none := matchLit2_none hJE
  have mAE : matchLit ['A', 'E'] (a :: b :: t) = none := matchLit2_none hAE
  have mDY : matchLit ['D', 'Y'] (a :: b :: t) = none := matchLit2_none hDY
  have mADD : matchLit ['A', 'D', 'D'] (a :: b :: t) = none := matchLit2_none hAD
  have mAD : matchLit ['A', 'D'] (a :: b :: t) = none := matchLit2_none hAD
  have mEE : matchLit ['E', 'E'] (a :: b :: t) = none := matchLit2_none hEE
  unfold tryTokenB matchTokenAlt
  rw [mJE, mAE, mDY, mADD, mAD, mEE]
  rfl

/-! ### Whitespace-walk lemmas for the suffix search -/

theorem wsTokenAfter_allWS {sL : List Char} :
    ∀ v : List Char, (∀ c ∈ v, isWS c = true) →
      wsTokenAfter (v ++ ' ' :: sL) = wsTokenAfter sL := by
  intro v
  induction v with
  | nil =>
    intro _
    show wsTokenAfter (' ' :: sL) = wsTokenAfter sL
    rw [wsTokenAfter, if_pos (by decide)]
  | cons c v' ih =>
    intro h
    show wsTokenAfter (c :: (v' ++ ' ' :: sL)) = wsTokenAfter sL
    rw [wsTokenAfter, if_pos (h c (List.mem_cons_self c v')),
      ih (fun x hx => h x (List.mem_cons_of_mem c hx))]

theorem wsTokenAfter_append_none {sL : List Char} :
    ∀ m : List Char, noBadPairs m = true → (∃ x ∈ m, isWS x = false) →
      wsTokenAfter (m ++ ' ' :: sL) = none := by
  intro m
  induction m with
  | nil => intro _ hex; simp at hex
  | cons c m' ih =>
    intro hnb hex
    show wsTokenAfter (c :: (m' ++ ' ' :: sL)) = none
    rcases hc : isWS c with _ | _
    · have htok : tryTokenB (c :: (m' ++ ' ' :: sL)) = none := by
        cases m' with
        | nil => exact tryTokenB_none (badPair_snd_ws (by decide))
        | cons b m'' => exact tryTokenB_none (noBadPairs_head hnb)
      rw [wsTokenAfter, if_neg (by simp [hc]), htok]
      rfl
    · have hex' : ∃ x ∈ m', isWS x = false := by
        obtain ⟨x, hx, hxw⟩ := hex
        rcases List.mem_cons.mp hx with h1 | h1
        · subst h1; rw [hc] at hxw; exact absurd hxw (by simp)
        · exact ⟨x, h1, hxw⟩
      rw [wsTokenAfter, if_pos hc, ih (noBadPairs_tail hnb) hex']

/-- `re.search` of the suffix pattern on `p ++ " " ++ s`: when `p` hosts no
suffix-starting letter pair, the leftmost match is the terminal one — it
starts at the separating whitespace, its prefix is `p` less trailing
whitespace, and its group is the whole suffix. -/
theorem searchSuffix_append {sL : List Char} (hws : wsTokenAfter sL = some sL) :
    ∀ p : List Char, noBadPairs p = true →
      searchSuffix (p ++ ' ' :: sL) = some (dropTrailWS p, sL) := by
  intro p
  induction p with
  | nil =>
    intro _
    show searchSuffix (' ' :: sL) = some ([], sL)
    rw [searchSuffix, wsTokenAt, if_pos (by decide), hws]
  | cons c p' ih =>
    intro hnb
    have hnb' : noBadPairs p' = true := noBadPairs_tail hnb
    show searchSuffix (c :: (p' ++ ' ' :: sL)) = some (dropTrailWS (c :: p'), sL)
    rcases hc : isWS c with _ | _
    · have hat : wsTokenAt (c :: (p' ++ ' ' :: sL)) = none := by
        rw [wsTokenAt, if_neg (by simp [hc])]
      rw [searchSuffix, hat, ih hnb', dropTrailWS_cons_nonws hc]
      rfl
    · by_cases hall : ∀ x ∈ p', isWS x = true
      · have hat : wsTokenAt (c :: (p' ++ ' ' :: sL)) = some sL := by
          rw [wsTokenAt, if_pos hc, wsTokenAfter_allWS p' hall, hws]
        have hdt : dropTrailWS (c :: p') = [] := by
          apply dropTrailWS_allws
          intro x hx
          rcases List.mem_cons.mp hx with h1 | h1
          · subst h1; exact hc
          · exact hall x h1
        rw [searchSuffix, hat, hdt]
      · have hex : ∃ x ∈ p', isWS x = false := by
          by_contra hno
          apply hall
          intro x hx
          rcases hxw : isWS x with _ | _
          · exact absurd ⟨x, hx, hxw⟩ hno
          · rfl
        have hat : wsTokenAt (c :: (p' ++ ' ' :: sL)) = none := by
          rw [wsTokenAt, if_pos hc, wsTokenAfter_append_none p' hnb' hex]
        rw [searchSuffix, hat, ih hnb',
          dropTrailWS_cons_of_ne (dropTrailWS_ne_nil hex)]
        rfl

/-! ### Lemmas about the Transferred-annotation substitution -/

theorem matchTransfAt_none {l : List Char} (h : '(' ∉ l) : matchTransfAt l = none := by
  induction l with
  | nil => rfl
  | cons c rest ih =>
    have hc : c ≠ '(' := fun hcc => h (hcc ▸ List.mem_cons_self c rest)
    rcases hw : isWS c with _ | _
    · rw [matchTransfAt, if_neg (by simp [hw]), transfTail, if_neg hc]
    · rw [matchTransfAt, if_pos hw, ih (fun hr => h (List.mem_cons_of_mem c hr))]

theorem subTransfFuel_id : ∀ (fuel : Nat) (l : List Char), '(' ∉ l →
    subTransfFuel fuel l = l := by
  intro fuel
  induction fuel with
  | zero => intro l _; rfl
  | succ f ih =>
    intro l h
    cases l with
    | nil => rfl
    | cons c rest =>
      have hstep : subTransfFuel (f + 1) (c :: rest) = c :: subTransfFuel f rest := by
        show (match matchTransfAt (c :: rest) with
          | some r => subTransfFuel f r
          | none => c :: subTransfFuel f rest) = c :: subTransfFuel f rest
        rw [matchTransfAt_none h]
      rw [hstep, ih rest (fun hr => h (List.mem_cons_of_mem c hr))]

theorem subTransf_id {l : List Char} (h : '(' ∉ l) : subTransf l = l :=
  subTransfFuel_id _ _ h

theorem matchTransfAt_append_none {annot : List Char} :
    ∀ v : List Char, '(' ∉ v → (∃ x ∈ v, isWS x = false) →
      matchTransfAt (v ++ annot) = none := by
  intro v
  induction v with
  | nil => intro _ hex; simp at hex
  | cons c v' ih =>
    intro h hex
    have hc : c ≠ '(' := fun hcc => h (hcc ▸ List.mem_cons_self c v')
    show matchTransfAt (c :: (v' ++ annot)) = none
    rcases hw : isWS c with _ | _
    · rw [matchTransfAt, if_neg (by simp [hw]), transfTail, if_neg hc]
    · have hex' : ∃ x ∈ v', isWS x = false := by
        obtain ⟨x, hx, hxw⟩ := hex
        rcases List.mem_cons.mp hx with h1 | h1
        · subst h1; rw [hw] at hxw; exact absurd hxw (by simp)
        · exact ⟨x, h1, hxw⟩
      rw [matchTransfAt, if_pos hw,
        ih (fun hr => h (List.mem_cons_of_mem c hr)) hex']

theorem subTransfFuel_nil (f : Nat) : subTransfFuel f [] = [] := by
  cases f <;> rfl

theorem ciEq_refl (c : Char) : ciEq c c = true := by
  rw [ciEq]
  exact beq_self_eq_true _

/-- A literal pattern matches itself at the head of the input. -/
theorem matchLit_refl (p : List Char) : ∀ r, matchLit p (p ++ r) = some (p, r) := by
  induction p with
  | nil => intro r; rfl
  | cons c ps ih =>
    intro r
    show (if ciEq c c then
      ((matchLit ps (ps ++ r)).map fun tr => (c :: tr.1, tr.2)) else none) =
      some (c :: ps, r)
    rw [if_pos (ciEq_refl c), ih r]
    rfl

theorem transfTail_transferred (r : List Char) :
    transfTail ('(' :: ("Transferred".data ++ ')' :: r)) = some r := by
  simp only [transfTail]
  rw [if_pos trivial, matchLit_refl]
  rfl

theorem transfTail_trf (r : List Char) :
    transfTail ('(' :: ("Trf".data ++ ')' :: r)) = some r := by
  have hfail : matchLit ['T', 'r', 'a', 'n', 's', 'f', 'e', 'r', 'r', 'e', 'd']
      (['T', 'r', 'f'] ++ ')' :: r) = none := by
    show matchLit ('T' :: 'r' :: 'a' :: 'n' :: 's' :: 'f' :: 'e' :: 'r' :: 'r'
      :: 'e' :: 'd' :: []) ('T' :: 'r' :: 'f' :: ')' :: r) = none
    rw [matchLit, if_pos (by decide), matchLit, if_pos (by decide),
      matchLit, if_neg (by decide)]
    rfl
  simp only [transfTail]
  rw [if_pos trivial, hfail, matchLit_refl]
  rfl

/-- `\s*\((Transferred|Trf|transferred)\)` matches at the head of
`" (Transferred)" ++ rest`, leaving `rest`. -/
theorem matchTransfAt_transferred (rest : List Char) :
    matchTransfAt (" (Transferred)".data ++ rest) = some rest := by
  show matchTransfAt (' ' :: '(' :: ("Transferred".data ++ ')' :: rest)) = some rest
  rw [matchTransfAt, if_pos (by decide), matchTransfAt, if_neg (by decide)]
  exact transfTail_transferred rest

theorem matchTransfAt_trf (rest : List Char) :
    matchTransfAt (" (Trf)".data ++ rest) = some rest := by
  show matchTransfAt (' ' :: '(' :: ("Trf".data ++ ')' :: rest)) = some rest
  rw [matchTransfAt, if_pos (by decide), matchTransfAt, if_neg (by decide)]
  exact transfTail_trf rest

/-- Scanning `l ++ annot` with a clean prefix `l` (no parenthesis, no
trailing whitespace): the first match is the one at `annot`, which is
dropped, and the parenthesis-free remainder `rest` is copied verbatim. -/
theorem subTransfFuel_strip {annot rest : List Char} (hann : annot ≠ [])
    (hmt : matchTransfAt annot = some rest) (hrest : '(' ∉ rest) :
    ∀ (fuel : Nat) (l : List Char), (l ++ annot).length ≤ fuel → '(' ∉ l →
      dropTrailWS l = l → subTransfFuel fuel (l ++ annot) = l ++ rest := by
  intro fuel
  induction fuel with
  | zero =>
    intro l hlen _ _
    exfalso
    rw [List.length_append] at hlen
    have : annot.length = 0 := by omega
    exact hann (List.length_eq_zero.mp this)
  | succ f ih =>
    intro l hlen hpar htrail
    cases l with
    | nil =>
      cases hann' : annot with
      | nil => exact absurd hann' hann
      | cons a arest =>
        subst hann'
        show subTransfFuel (f + 1) (a :: arest) = [] ++ rest
        have hstep : subTransfFuel (f + 1) (a :: arest) = subTransfFuel f rest := by
          show (match matchTransfAt (a :: arest) with
            | some r => subTransfFuel f r
            | none => a :: subTransfFuel f arest) = subTransfFuel f rest
          rw [hmt]
        rw [hstep, subTransfFuel_id f rest hrest]
        rfl
    | cons c l' =>
      have hc : c ≠ '(' := fun hcc => hpar (hcc ▸ List.mem_cons_self c l')
      have hpar' : '(' ∉ l' := fun hr => hpar (List.mem_cons_of_mem c hr)
      have htrail' : dropTrailWS l' = l' := dropTrailWS_of_cons_eq htrail
      have hmatch : matchTransfAt (c :: (l' ++ annot)) = none := by
        rcases hw : isWS c with _ | _
        · rw [matchTransfAt, if_neg (by simp [hw]), transfTail, if_neg hc]
        · have hex : ∃ x ∈ l', isWS x = false := by
            by_contra hno
            have hall : ∀ x ∈ l', isWS x = true := by
              intro x hx
              rcases hxw : isWS x with _ | _
              · exact absurd ⟨x, hx, hxw⟩ hno
              · rfl
            have hz : dropTrailWS (c :: l') = [] := by
              apply dropTrailWS_allws
              intro x hx
              rcases List.mem_cons.mp hx with h1 | h1
              · subst h1; exact hw
              · exact hall x h1
            rw [htrail] at hz
            exact List.cons_ne_nil c l' hz
          rw [matchTransfAt, if_pos hw, matchTransfAt_append_none l' hpar' hex]
      have hstep : subTransfFuel (f + 1) ((c :: l') ++ annot) =
          c :: subTransfFuel f (l' ++ annot) := by
        show (match matchTransfAt (c :: (l' ++ annot)) with
          | some r => subTransfFuel f r
          | none => c :: subTransfFuel f (l' ++ annot)) =
          c :: subTransfFuel f (l' ++ annot)
        rw [hmatch]
      have hlen' : (l' ++ annot).length ≤ f := by
        rw [List.length_append] at hlen ⊢
        simp only [List.length_cons] at hlen
        omega
      rw [hstep, ih l' hlen' hpar' htrail']
      rfl

theorem subTransf_strip {annot l rest : List Char} (hann : annot ≠ [])
    (hmt : matchTransfAt annot = some rest) (hrest : '(' ∉ rest)
    (hpar : '(' ∉ l) (htrail : dropTrailWS l = l) :
    subTransf (l ++ annot) = l ++ rest :=
  subTransfFuel_strip hann hmt hrest _ l (Nat.le_refl _) hpar htrail

/-! ### String-level glue -/

theorem stringData_append (a b : String) : (a ++ b).data = a.data ++ b.data := by
  cases a; cases b; rfl

theorem pyStrip_parts {p : String} (h : pyStrip p = p) :
    dropLeadWS p.data = p.data ∧ dropTrailWS p.data = p.data := by
  have hdata : trimChars p.data = p.data := by
    have := congrArg String.data h
    exact this
  exact trimChars_parts hdata

theorem data_ne_nil {p : String} (h : p ≠ "") : p.data ≠ [] := by
  intro hc
  apply h
  apply stringData_inj
  rw [hc]

/-- The central assembly: once the substitution step is known to leave
`p ++ " " ++ s` (clean prefix `p`, recognized suffix spelling `s`),
`format_staff_name` yields `p ++ " (" ++ s ++ ")"`. -/
theorem formatStaffName_core (p s raw : String)
    (hp1 : p ≠ "") (hp2 : pyStrip p = p) (hp3 : noBadPairs p.data = true)
    (hvac : containsStr raw "VACANT" = false)
    (hws : wsTokenAfter s.data = some s.data)
    (hdts : dropTrailWS s.data = s.data) (hsne : s.data ≠ [])
    (hsub : subTransf raw.data = p.data ++ ' ' :: s.data) :
    format_staff_name raw "" = p ++ " (" ++ s ++ ")" := by
  have hparts := pyStrip_parts hp2
  have hpne := data_ne_nil hp1
  obtain ⟨c0, p0, hp0⟩ : ∃ c0 p0, p.data = c0 :: p0 := by
    cases hpd : p.data with
    | nil => exact absurd hpd hpne
    | cons c0 p0 => exact ⟨c0, p0, rfl⟩
  have hc0 : isWS c0 = false := head_nonws_of_dropLead (hp0 ▸ hparts.1)
  -- the substituted text has no trailing whitespace
  have hltrail : dropTrailWS (p.data ++ ' ' :: s.data) = p.data ++ ' ' :: s.data := by
    have h0 : (p.data ++ [' ']) ++ s.data = p.data ++ ' ' :: s.data := by simp
    rw [← h0]
    exact dropTrailWS_append hdts hsne _
  -- trimming is a no-op after the substitution
  have htrim : trimChars (p.data ++ ' ' :: s.data) = p.data ++ ' ' :: s.data := by
    unfold trimChars
    have hlead : dropLeadWS (p.data ++ ' ' :: s.data) = p.data ++ ' ' :: s.data := by
      rw [hp0, List.cons_append]
      unfold dropLeadWS
      rw [List.dropWhile_cons, if_neg (by simp [hc0])]
    rw [hlead, hltrail]
  -- the search finds the terminal suffix
  have hsearch : searchSuffix (p.data ++ ' ' :: s.data) = some (p.data, s.data) := by
    rw [searchSuffix_append hws p.data hp3, hparts.2]
  -- assemble
  rw [format_staff_name, if_neg (by simp [hvac])]
  simp only [hsub, htrim, hsearch]
  rw [if_pos trivial]
  apply stringData_inj
  show trimChars p.data ++ ' ' :: '(' :: s.data ++ [')'] =
    (p ++ " (" ++ s ++ ")").data
  have htp : trimChars p.data = p.data := by
    unfold trimChars
    rw [hparts.1, hparts.2]
  rw [htp, stringData_append, stringData_append, stringData_append]
  simp

/-- On `p ++ " " ++ s ++ annot` with a clean prefix `p`, a recognized
suffix spelling `s`, and an optional *trailing* `(Transferred)`-style
annotation, `format_staff_name` yields `p ++ " (" ++ s ++ ")"`. -/
theorem formatStaffName_suffix (p s annot : String)
    (hp1 : p ≠ "") (hp2 : pyStrip p = p) (hp3 : noBadPairs p.data = true)
    (hp4 : '(' ∉ p.data)
    (hvac : containsStr (p ++ " " ++ s ++ annot) "VACANT" = false)
    (hws : wsTokenAfter s.data = some s.data)
    (hdts : dropTrailWS s.data = s.data) (hsne : s.data ≠ [])
    (hspar : '(' ∉ s.data)
    (hann : annot.data = [] ∨ (annot.data ≠ [] ∧ matchTransfAt annot.data = some [])) :
    format_staff_name (p ++ " " ++ s ++ annot) "" = p ++ " (" ++ s ++ ")" := by
  -- the raw character list
  have hdata : (p ++ " " ++ s ++ annot).data =
      (p.data ++ ' ' :: s.data) ++ annot.data := by
    rw [stringData_append, stringData_append, stringData_append]
    simp
  -- no parenthesis in the pre-annotation part
  have hlpar : '(' ∉ p.data ++ ' ' :: s.data := by
    intro hc
    rcases List.mem_append.mp hc with h1 | h1
    · exact hp4 h1
    · rcases List.mem_cons.mp h1 with h2 | h2
      · simp at h2
      · exact hspar h2
  -- the pre-annotation part has no trailing whitespace
  have hltrail : dropTrailWS (p.data ++ ' ' :: s.data) = p.data ++ ' ' :: s.data := by
    have h0 : (p.data ++ [' ']) ++ s.data = p.data ++ ' ' :: s.data := by simp
    rw [← h0]
    exact dropTrailWS_append hdts hsne _
  -- the substitution leaves the pre-annotation part
  have hsub : subTransf (p ++ " " ++ s ++ annot).data = p.data ++ ' ' :: s.data := by
    rw [hdata]
    rcases hann with h1 | ⟨h1, h2⟩
    · rw [h1, List.append_nil]
      exact subTransf_id hlpar
    · have h3 := subTransf_strip h1 h2 (by simp) hlpar hltrail
      simpa using h3
  exact formatStaffName_core p s _ hp1 hp2 hp3 hvac hws hdts hsne hsub

/-- On `p ++ mid ++ " " ++ s` with the `(Transferred)`/`(Trf)` annotation
`mid` sitting *inline* between the name and the suffix, the substitution
strips it and `format_staff_name` still yields `p ++ " (" ++ s ++ ")"`. -/
theorem formatStaffName_inline (p s mid : String)
    (hmid : mid ∈ [" (Transferred)", " (Trf)"])
    (hp1 : p ≠ "") (hp2 : pyStrip p = p) (hp3 : noBadPairs p.data = true)
    (hp4 : '(' ∉ p.data)
    (hvac : containsStr (p ++ mid ++ " " ++ s) "VACANT" = false)
    (hws : wsTokenAfter s.data = some s.data)
    (hdts : dropTrailWS s.data = s.data) (hsne : s.data ≠ [])
    (hspar : '(' ∉ s.data) :
    format_staff_name (p ++ mid ++ " " ++ s) "" = p ++ " (" ++ s ++ ")" := by
  have hparts := pyStrip_parts hp2
  have hdata : (p ++ mid ++ " " ++ s).data =
      p.data ++ (mid.data ++ ' ' :: s.data) := by
    rw [stringData_append, stringData_append, stringData_append]
    simp
  have hmt : matchTransfAt (mid.data ++ ' ' :: s.data) = some (' ' :: s.data) := by
    fin_cases hmid
    · exact matchTransfAt_transferred (' ' :: s.data)
    · exact matchTransfAt_trf (' ' :: s.data)
  have hrest : '(' ∉ ' ' :: s.data := by
    intro hc
    rcases List.mem_cons.mp hc with h1 | h1
    · simp at h1
    · exact hspar h1
  have hsub : subTransf (p ++ mid ++ " " ++ s).data = p.data ++ ' ' :: s.data := by
    rw [hdata]
    exact subTransf_strip (by simp) hmt hrest hp4 hparts.2
  exact formatStaffName_core p s _ hp1 hp2 hp3 hvac hws hdts hsne hsub

/-! ### Claim C9 -/

end Staffing
